import Mathlib

/-!
# Verification of `pisco.py` (TelnetDevice session and parsers)

A shallow embedding of the core of `pisco.py`: the prompt-matching read
(`telnetlib.Telnet.expect` as called by `read_output`), the login loop of
`TelnetDevice.__init__`, the privilege-escalation loop `enable`, and the
interface-status parser `get_int_status`, together with proofs about them.

Python strings (decoded with the Latin-1 single-byte charset, so bytes and
characters are in 1-1 correspondence) are modelled as `List Char`.  Network
reads are modelled by an explicit oracle: a list of the texts successive
reads return.  Python exceptions are modelled as explicit outcome
constructors (`ConnectionError`, `KeyError`, `AttributeError`, `IndexError`).
-/

set_option maxRecDepth 10000

/-- Coerce a Lean string literal to the `List Char` representation used
throughout. -/
def ofS (s : String) : List Char := s.data

/-! ## Python string primitives -/

/-- Python whitespace characters in the Latin-1 range, as recognised by
`str.strip()` / `str.isspace()`. -/
def pySpace (c : Char) : Bool :=
  c = ' ' || c = '\t' || c = '\n' || c = '\x0b' || c = '\x0c' || c = '\r' ||
  c = Char.ofNat 28 || c = Char.ofNat 29 || c = Char.ofNat 30 ||
  c = Char.ofNat 133 || c = Char.ofNat 160

/-- Python `str.strip()` (no argument): remove leading and trailing
whitespace. -/
def pstrip (s : List Char) : List Char :=
  ((s.dropWhile pySpace).reverse.dropWhile pySpace).reverse

/-- Python `str.rstrip(c)` for a single-character argument: remove every
trailing occurrence of `c`. -/
def rstripChar (c : Char) (s : List Char) : List Char :=
  (s.reverse.dropWhile (· = c)).reverse

/-- Python slicing `s[a:b]` for `0 ≤ a`, `0 ≤ b`. -/
def pslice (a b : Nat) (s : List Char) : List Char :=
  (s.drop a).take (b - a)

/-- `pat` is an initial segment of `s` (Python `str.startswith`). -/
def leadsWith : List Char → List Char → Bool
  | [], _ => true
  | _ :: _, [] => false
  | a :: as, b :: bs => a = b && leadsWith as bs

/-- Python `s.endswith(c)` for a one-character suffix: the last character of
`s` is `c` (false on the empty string). -/
def endsWithChar (c : Char) (s : List Char) : Bool :=
  match s.getLast? with
  | some d => d = c
  | none => false

/-- End position (exclusive) of the leftmost occurrence of `pat` in `s`,
mirroring `re.search` on a literal pattern. -/
def matchEnd (pat : List Char) (s : List Char) : Option Nat :=
  if leadsWith pat s then some pat.length
  else
    match s with
    | [] => none
    | _ :: t => (matchEnd pat t).map (· + 1)

/-- Python `pat in s` (substring containment). -/
def hasSub (pat s : List Char) : Bool :=
  (matchEnd pat s).isSome

/-- One step of Python `str.replace(pat, rep)`, with explicit fuel; the fuel
is instantiated with `s.length` in `replaceAll`, which is always enough
because every step consumes at least one character of `s`. -/
def replaceAllAux (pat rep : List Char) : Nat → List Char → List Char
  | _, [] => []
  | 0, s => s
  | fuel + 1, c :: rest =>
    if leadsWith pat (c :: rest) && !pat.isEmpty then
      rep ++ replaceAllAux pat rep fuel (rest.drop (pat.length - 1))
    else
      c :: replaceAllAux pat rep fuel rest

/-- Python `s.replace(pat, rep)`: replace all non-overlapping occurrences of
`pat`, left to right. -/
def replaceAll (pat rep s : List Char) : List Char :=
  replaceAllAux pat rep s.length s

/-- Line-break characters recognised by Python `str.splitlines()` in the
Latin-1 range (besides the `"\r\n"` pair, which is handled separately). -/
def isLineBreak (c : Char) : Bool :=
  c = '\n' || c = '\r' || c = '\x0b' || c = '\x0c' ||
  c = Char.ofNat 28 || c = Char.ofNat 29 || c = Char.ofNat 30 ||
  c = Char.ofNat 133

/-- Worker for `splitlines`: `acc` holds the current line, reversed. -/
def splitlinesAux (acc : List Char) : List Char → List (List Char)
  | [] => [acc.reverse]
  | '\r' :: '\n' :: [] => [acc.reverse]
  | '\r' :: '\n' :: d :: rest => acc.reverse :: splitlinesAux [] (d :: rest)
  | c :: rest =>
    if isLineBreak c then
      match rest with
      | [] => [acc.reverse]
      | d :: rest2 => acc.reverse :: splitlinesAux [] (d :: rest2)
    else splitlinesAux (c :: acc) rest

/-- Python `str.splitlines()`: split at line breaks, with no trailing empty
line for a trailing break, and `[]` on the empty string. -/
def splitlines : List Char → List (List Char)
  | [] => []
  | c :: rest => splitlinesAux [] (c :: rest)

/-- Python `s.split(",")` (the `DELIMITER` of pisco.py): split at every
comma, keeping empty fields; the result is never empty. -/
def splitOnComma : List Char → List (List Char)
  | [] => [[]]
  | c :: rest =>
    if c = ',' then [] :: splitOnComma rest
    else
      match splitOnComma rest with
      | [] => [[c]]
      | h :: t => (c :: h) :: t

/-! ## The interface-status record and the `self.int_status` dictionary

`get_int_status` stores its results in the Python dict `self.int_status`,
keyed by interface name.  The dict is modelled as an association list with
insertion-order semantics: updating an existing key replaces its value in
place, a new key is appended at the end (exactly Python's dict behaviour).
-/

/-- The per-interface record built by `get_int_status` (the inner dict with
keys `description`, `status`, `vlan`, `speed`, `power`). -/
structure IntRec where
  description : List Char
  status : List Char
  vlan : List Char
  speed : List Char
  power : List Char
deriving DecidableEq, Inhabited

/-- The `self.int_status` dictionary. -/
abbrev IntDict := List (List Char × IntRec)

/-- Python `d[k]` lookup (as an `Option`). -/
def alookup (k : List Char) : IntDict → Option IntRec
  | [] => none
  | (k', v) :: rest => if k' = k then some v else alookup k rest

/-- Python `d[k] = v`: replace in place if `k` is present, else append. -/
def ainsert (k : List Char) (v : IntRec) : IntDict → IntDict
  | [] => [(k, v)]
  | (k', v') :: rest =>
    if k' = k then (k, v) :: rest else (k', v') :: ainsert k v rest

/-- Update the record stored at `k` (no-op when `k` is absent); models the
in-place mutations `d[k]["description"] = ...` / `d[k].update(...)`. -/
def aupdate (k : List Char) (f : IntRec → IntRec) : IntDict → IntDict
  | [] => []
  | (k', v') :: rest =>
    if k' = k then (k', f v') :: rest else (k', v') :: aupdate k f rest

/-- Python `k in d`. -/
def amember (k : List Char) (m : IntDict) : Bool :=
  (alookup k m).isSome

/-- The key list of the dictionary, in order. -/
def akeys (m : IntDict) : List (List Char) :=
  m.map Prod.fst

/-- The dictionary has no duplicate keys — an invariant of every dict
reachable from the empty `self.int_status` created in `__init__`. -/
def NoDupKeys (m : IntDict) : Prop :=
  (akeys m).Nodup

/-! ## `get_int_status` -/

/-- Line filter shared by `get_int_list` and the base table parse of
`get_int_status`: `read_output().splitlines()[3:-1]`, dropping separator
lines (leading dashes) and blank lines. -/
def statusLinesOf (resp : List Char) : List (List Char) :=
  (((splitlines resp).drop 3).dropLast).filter
    (fun l => !leadsWith (ofS "----") l && !(pstrip l).isEmpty)

/-- The fixed-column field extraction of one base-table line in
`get_int_status` (source lines 209–219): name `[0:8)`, description
`[10:29)`, status `[29:39)`, VLAN `[42:47)`, speed `[60:66)` with
`"a-"` deleted then `"auto"` rewritten to `"-"`; power initialised to
`"-"`. -/
def parseStatusLine (line : List Char) : List Char × IntRec :=
  (pstrip (pslice 0 8 line),
   { description := pstrip (pslice 10 29 line)
     status := pstrip (pslice 29 39 line)
     vlan := pstrip (pslice 42 47 line)
     speed := replaceAll (ofS "auto") (ofS "-")
                (replaceAll (ofS "a-") [] (pstrip (pslice 60 66 line)))
     power := ofS "-" })

/-- Fold a list of key/record pairs into the dictionary with `d[k] = v`. -/
def insertAll (m : IntDict) (ps : List (List Char × IntRec)) : IntDict :=
  ps.foldl (fun m kv => ainsert kv.1 kv.2 m) m

/-- The base-table pass of `get_int_status` over the `show int status`
response: parse each filtered line and store it under its name. -/
def applyStatus (m : IntDict) (resp : List Char) : IntDict :=
  insertAll m ((statusLinesOf resp).map parseStatusLine)

/-- Line filter of the full-description pass:
`read_output().splitlines()[3:-1]` keeping only non-blank lines (no
dash-line filter here, matching the source). -/
def descLinesOf (resp : List Char) : List (List Char) :=
  (((splitlines resp).drop 3).dropLast).filter
    (fun l => !(pstrip l).isEmpty)

/-- The full-description pass of `get_int_status`: for each line, take the
name from `[0:8)` and, only if it is already present, overwrite the stored
description with `line[55:]` stripped. -/
def applyDesc (m : IntDict) (resp : List Char) : IntDict :=
  (descLinesOf resp).foldl
    (fun m l =>
      let k := pstrip (pslice 0 8 l)
      if amember k m then
        aupdate k (fun r => { r with description := pstrip (l.drop 55) }) m
      else m)
    m

/-- The inline-power pass of `get_int_status`: guarded by
`len(response) > 5`; rows are `response[1:-1]` unfiltered; each row's name
comes from `[0:10)` and its power from `[26:32)` with `".0"` deleted and
`"W"` appended.  The row is merged with `self.int_status[interface].update`,
an unguarded dict lookup: `none` models the `KeyError` raised when the name
is absent from the dictionary. -/
def applyPower (m : IntDict) (resp : List Char) : Option IntDict :=
  let ls := splitlines resp
  if ls.length > 5 then
    ((ls.drop 1).dropLast).foldlM
      (fun m l =>
        let k := pstrip (pslice 0 10 l)
        let p := replaceAll (ofS ".0") [] (pstrip (pslice 26 32 l)) ++ ofS "W"
        if amember k m then some (aupdate k (fun r => { r with power := p }) m)
        else none)
      m
  else some m

/-- `TelnetDevice.get_int_status(get_full_description, get_power)` as a
function of the current `self.int_status` dictionary and the texts returned
by the up-to-three reads; `none` models the `KeyError` escape of the power
pass. -/
def get_int_status (m : IntDict) (statusResp : List Char)
    (get_full_description : Bool) (descResp : List Char)
    (get_power : Bool) (powerResp : List Char) : Option IntDict :=
  let m1 := applyStatus m statusResp
  let m2 := if get_full_description then applyDesc m1 descResp else m1
  if get_power then applyPower m2 powerResp else some m2

/-! ## The prompt-matching transport: `read_output` over `telnetlib.expect`

`read_output(password_prompt)` calls `self.expect(expected, timeout=7)` with
`expected = [b"\>", b"\#"]`, extended by `[b"sername\:", b"assword\:"]` when
`password_prompt` is true.  All four regexes are escaped literals, so each
one matches anywhere in the buffered data.  `telnetlib.Telnet.expect`
accumulates arriving data and, after each arrival, tries the patterns in
list order; at the first pattern with a match it returns the buffer
truncated at the end of that pattern's leftmost occurrence (the rest stays
buffered); on timeout or EOF it returns the whole buffer with no index.

The arriving byte stream is modelled as a list of chunks, and a timeout as
the chunk list running out.
-/

/-- Try the patterns in list order against the buffer: index of the first
pattern that occurs, with the end position of its leftmost occurrence. -/
def expectStep (i : Nat) (pats : List (List Char)) (buf : List Char) :
    Option (Nat × Nat) :=
  match pats with
  | [] => none
  | p :: ps =>
    match matchEnd p buf with
    | some e => some (i, e)
    | none => expectStep (i + 1) ps buf

/-- `telnetlib.Telnet.expect`: grow the buffer chunk by chunk; return
`(matched index or none for timeout, returned text, data left buffered)`. -/
def expectRun (pats : List (List Char)) (buf : List Char)
    (chunks : List (List Char)) : Option Nat × List Char × List Char :=
  match expectStep 0 pats buf with
  | some (i, e) => (some i, buf.take e, buf.drop e)
  | none =>
    match chunks with
    | [] => (none, buf, [])
    | c :: rest => expectRun pats (buf ++ c) rest

/-- The pattern list of `read_output` (source lines 121–124). -/
def expectedPats (password_prompt : Bool) : List (List Char) :=
  if password_prompt then [ofS ">", ofS "#", ofS "sername:", ofS "assword:"]
  else [ofS ">", ofS "#"]

/-- `TelnetDevice.read_output` on a fresh buffer: the text returned to the
caller (on a match, truncated at the match end; on timeout, everything
read). -/
def read_output (password_prompt : Bool) (chunks : List (List Char)) :
    List Char :=
  (expectRun (expectedPats password_prompt) [] chunks).2.1

/-! ## The login loop of `TelnetDevice.__init__`

The constructor reads once, keeps only the last line, and then loops
(source lines 66–98): a `"User"` cue sends `username.split(",")[retries]`
and reads again; a `"Pass"` cue checks the list-length precondition, sends
`password.split(",")[retries]` and reads again; a response whose last
character is `>` or `#` ends the loop successfully; otherwise `retries` is
advanced if at least two candidates remain, else `ConnectionError` is
raised.  Note that the retry branch re-enters the loop with the *same*
response text.

The texts returned by successive reads are an explicit oracle
`responses : List (List Char)`.  The credential strings sent over the
connection are recorded as a trace of `Ev` events.
-/

/-- A credential write performed by the login loop: the candidate index
used and the text sent. -/
inductive Ev where
  | user (i : Nat) (c : List Char)
  | pass (i : Nat) (c : List Char)
deriving DecidableEq

/-- How a login run ends.  `success enable hostname` models the normal
return from `__init__` (with `self.enable_mode` and `self.hostname`);
`precondError` the `ConnectionError` raised at the list-length check;
`authError` the `ConnectionError` raised when the candidates are exhausted;
`interactive` the `input()`/`getpass()` prompt reached when no credential
was supplied; `crash` an `IndexError` on an empty first response; `noData`
a read with no data left in the oracle (a timeout surfacing later). -/
inductive LOut where
  | success (enable : Bool) (hostname : List Char)
  | precondError
  | authError
  | interactive
  | crash
  | noData
deriving DecidableEq

/-- The hostname derivation on success:
`response.splitlines()[-1].rstrip(c)` for the prompt character `c`. -/
def hostnameOf (c : Char) (response : List Char) : List Char :=
  rstripChar c ((splitlines response).getLastD [])

/-- The `"User"` branch of the loop body: on a username cue, send
`username.split(",")[retries]` and read the next response.  Returns either
an early exit (`Sum.inl`) or the events emitted together with the response
and oracle the rest of the iteration continues with. -/
def loginUserPhase (u : List Char) (uL : List (List Char)) (retries : Nat)
    (response : List Char) (responses : List (List Char)) :
    (LOut × List Ev) ⊕ (List Ev × List Char × List (List Char)) :=
  if hasSub (ofS "User") response then
    if u.isEmpty then .inl (.interactive, [])
    else
      match uL[retries]? with
      | none => .inl (.crash, [])
      | some cred =>
        match responses with
        | [] => .inl (.noData, [.user retries cred])
        | r :: rest => .inr ([.user retries cred], r, rest)
  else .inr ([], response, responses)

/-- The `"Pass"` branch of the loop body: on a password cue, check the
precondition `len(username.split(",")) == len(password.split(","))` and
either raise `ConnectionError` or send `password.split(",")[retries]` and
read the next response. -/
def loginPassPhase (p : List Char) (uL pL : List (List Char)) (retries : Nat)
    (response : List Char) (responses : List (List Char)) :
    (LOut × List Ev) ⊕ (List Ev × List Char × List (List Char)) :=
  if hasSub (ofS "Pass") response then
    if p.isEmpty then .inl (.interactive, [])
    else if uL.length ≠ pL.length then .inl (.precondError, [])
    else
      match pL[retries]? with
      | none => .inl (.crash, [])
      | some cred =>
        match responses with
        | [] => .inl (.noData, [.pass retries cred])
        | r :: rest => .inr ([.pass retries cred], r, rest)
  else .inr ([], response, responses)

/-- One iteration of the `while not login_successful` loop: username
phase, password phase, then the success test on the response in hand;
`canRetry` is the source guard
`len(self.username.split(DELIMITER)) - retries > 1` (decided by the caller
from the remaining gas), and `k` is the continuation for the next
iteration at `retries + 1`. -/
def loginIter (u p : List Char) (uL pL : List (List Char)) (retries : Nat)
    (response : List Char) (responses : List (List Char)) (canRetry : Bool)
    (k : List Char → List (List Char) → LOut × List Ev) : LOut × List Ev :=
  match loginUserPhase u uL retries response responses with
  | .inl r => r
  | .inr x1 =>
    match loginPassPhase p uL pL retries x1.2.1 x1.2.2 with
    | .inl r2 => (r2.1, x1.1 ++ r2.2)
    | .inr x2 =>
      if endsWithChar '>' x2.2.1 then
        (.success false (hostnameOf '>' x2.2.1), x1.1 ++ x2.1)
      else if endsWithChar '#' x2.2.1 then
        (.success true (hostnameOf '#' x2.2.1), x1.1 ++ x2.1)
      else if canRetry then
        let r := k x2.2.1 x2.2.2
        (r.1, x1.1 ++ x2.1 ++ r.2)
      else (.authError, x1.1 ++ x2.1)

/-- The `while not login_successful` loop.  `gas` is threaded as
`uL.length - retries` so the recursion is structural: the source guard
`len(self.username.split(DELIMITER)) - retries > 1` is exactly `gas > 1`,
and the retry branch re-enters with `retries + 1` and `gas - 1`. -/
def loginLoop (u p : List Char) (uL pL : List (List Char)) :
    Nat → Nat → List Char → List (List Char) → LOut × List Ev
  | g + 2, retries, response, responses =>
    loginIter u p uL pL retries response responses true
      (fun r2 rs2 => loginLoop u p uL pL (g + 1) (retries + 1) r2 rs2)
  | _, retries, response, responses =>
    loginIter u p uL pL retries response responses false
      (fun _ _ => (.authError, []))

/-- The login handshake of `TelnetDevice.__init__` for supplied credential
strings `u` and `p`: the first oracle entry is the initial read, of which
only the last line is kept (`.splitlines()[-1]`, an `IndexError` on an
empty text); then the loop runs with `retries = 0`. -/
def login (u p : List Char) (responses : List (List Char)) :
    LOut × List Ev :=
  match responses with
  | [] => (.noData, [])
  | r0 :: rest =>
    match (splitlines r0).getLast? with
    | none => (.crash, [])
    | some l0 =>
      let uL := splitOnComma u
      loginLoop u p uL (splitOnComma p) uL.length 0 l0 rest

/-! ## The privilege-escalation loop `TelnetDevice.enable`

`enable` (source lines 132–165) returns at once when already in enable
mode; otherwise it sends `"enable"` and loops, reading one response per
iteration: a `"Password:"` cue sends the next enable-password candidate, or
an empty line once the list is exhausted (clearing `self.enable_password`
to `None`); a response containing `"#"` succeeds; otherwise the escalation
command is resent while candidates remain, and the loop gives up (printing
a warning, no exception) once they are spent.  When
`self.enable_password` is `None` that last branch evaluates
`None.split(",")` and raises `AttributeError`.
-/

/-- A write performed by `enable`: a candidate password, the empty line
sent after exhaustion, or the `"enable"` command itself. -/
inductive EnEv where
  | cred (i : Nat) (c : List Char)
  | empty
  | enableCmd
deriving DecidableEq

/-- How an `enable` run ends.  `success` sets `self.enable_mode`;
`gaveUp` is the warning-and-`break` branch (the session stays usable,
unprivileged); `interactive` is the `getpass` prompt for a missing
password; `crash` is the `AttributeError` from `None.split(",")`;
`noData` is an exhausted oracle. -/
inductive EnOut where
  | success
  | gaveUp
  | interactive
  | crash
  | noData
deriving DecidableEq

/-- The `while self.enable_mode == False` loop of `enable`.  `pw` is
`self.enable_password` (`none` models Python `None`); each iteration
consumes one oracle entry, so the recursion is structural on `rs`. -/
def enableLoop (pw : Option (List Char)) (retries : Nat)
    (rs : List (List Char)) : EnOut × List EnEv :=
  match rs with
  | [] => (.noData, [])
  | r :: rest =>
    if hasSub (ofS "Password:") r then
      match pw with
      | none => (.interactive, [])
      | some p =>
        if p.isEmpty then (.interactive, [])
        else if retries < (splitOnComma p).length then
          let res := enableLoop (some p) (retries + 1) rest
          (res.1, .cred retries ((splitOnComma p).getD retries []) :: res.2)
        else
          let res := enableLoop none (retries + 1) rest
          (res.1, .empty :: res.2)
    else if hasSub (ofS "#") r then (.success, [])
    else
      match pw with
      | none => (.crash, [])
      | some p =>
        if retries < (splitOnComma p).length then
          let res := enableLoop (some p) retries rest
          (res.1, .enableCmd :: res.2)
        else (.gaveUp, [])

/-- `TelnetDevice.enable` as a function of `self.enable_mode`,
`self.enable_password` and the oracle of read texts.  The Python guard
`len(...) - retries >= 1` on non-negative ints is rendered as
`retries < length`. -/
def enable (enable_mode : Bool) (pw : Option (List Char))
    (rs : List (List Char)) : EnOut × List EnEv :=
  if enable_mode then (.success, [])
  else
    let res := enableLoop pw 0 rs
    (res.1, .enableCmd :: res.2)

/-! ## Auxiliary definitions used by the statements and proofs -/

/-- `pat` is a final segment of `s`. -/
def trailsWith (pat s : List Char) : Bool :=
  leadsWith pat.reverse s.reverse

/-- The value the last pair with key `k` in `ps` carries, if any: the
binding a left-to-right sequence of `d[k] = v` assignments leaves for `k`. -/
def lastAssoc (ps : List (List Char × IntRec)) (k : List Char) :
    Option IntRec :=
  match ps with
  | [] => none
  | (k0, v0) :: rest =>
    match lastAssoc rest k with
    | some v => some v
    | none => if k0 = k then some v0 else none

/-- `r'` agrees with `r` on every field except possibly the description. -/
def sameButDesc (r r' : IntRec) : Prop :=
  r'.status = r.status ∧ r'.vlan = r.vlan ∧ r'.speed = r.speed ∧
  r'.power = r.power

/-- The candidate index a login send used. -/
def evIdx : Ev → Nat
  | .user i _ => i
  | .pass i _ => i

/-- The send recorded its candidate list's entry at its index. -/
def payloadOK (uL pL : List (List Char)) : Ev → Prop
  | .user i c => uL[i]? = some c
  | .pass i c => pL[i]? = some c

/-- Which send may immediately follow which in a login trace: after
`user i` comes `pass` at the same index (same iteration) or either send at
`i + 1`; after `pass i` only a send at `i + 1` (the success check runs
before any further send at the same index). -/
def follows : Ev → Ev → Prop
  | .user i _, .pass j _ => j = i ∨ j = i + 1
  | .user i _, .user j _ => j = i + 1
  | .pass i _, e => evIdx e = i + 1

/-- Well-formedness of a login trace: payloads match the candidate lists,
consecutive sends obey `follows`, and the first send uses index 0. -/
def goodLoginTrace (uL pL : List (List Char)) (tr : List Ev) : Prop :=
  (∀ e ∈ tr, payloadOK uL pL e) ∧ List.Chain' follows tr ∧
  ∀ e rest, tr = e :: rest → evIdx e = 0

/-- The candidate-password sends of an `enable` trace, as
(index, text sent) pairs in order. -/
def credsOf (evs : List EnEv) : List (Nat × List Char) :=
  evs.filterMap (fun e =>
    match e with
    | .cred i c => some (i, c)
    | _ => none)

/-! ## Concrete sample data used in witnesses -/

def sampleLine : List Char :=
  ofS "Gi1/0/1   uplink-sw          connected    10                1000"

def sampleStatusResp : List Char :=
  ofS ("show int status\nPort      Name               Status       Vlan" ++
       "       Duplex  Speed Type\n\n" ++
       "Gi1/0/1   uplink-sw          connected    10                1000\n" ++
       "switch1#")

def sampleStatusResp2 : List Char :=
  ofS ("show int status\nPort      Name               Status       Vlan" ++
       "       Duplex  Speed Type\n\n" ++
       "Gi1/0/2   other              notconnect   20                100\n" ++
       "switch1#")

def samplePowerResp : List Char :=
  ofS ("Interface Admin  Oper       Power   Device              Class Max\n" ++
       "Gi1/0/1     auto   on         15.4    IP Phone         3     30.0\n" ++
       "Gi1/0/2     auto   on         6.3     AP               2     30.0\n" ++
       "Gi1/0/3     auto   off        0.0     n/a              n/a   30.0\n" ++
       "Gi1/0/4     auto   off        0.0     n/a              n/a   30.0\n" ++
       "Totals")

/-! ## Dictionary lemmas -/

theorem alookup_ainsert (k k' : List Char) (v : IntRec) (m : IntDict) :
    alookup k' (ainsert k v m) = if k = k' then some v else alookup k' m := by
  induction m with
  | nil => simp [ainsert, alookup]
  | cons kv rest ih =>
    obtain ⟨a, b⟩ := kv
    by_cases hak : a = k
    · subst hak
      by_cases hkk : a = k'
      · subst hkk; simp [ainsert, alookup]
      · simp [ainsert, alookup, hkk]
    · by_cases hak' : a = k'
      · subst hak'
        have hk' : k ≠ a := fun h => hak h.symm
        simp [ainsert, alookup, hak, hk']
      · simp [ainsert, alookup, hak, hak', ih]

theorem alookup_aupdate (k k' : List Char) (f : IntRec → IntRec)
    (m : IntDict) :
    alookup k' (aupdate k f m) =
      if k = k' then (alookup k' m).map f else alookup k' m := by
  induction m with
  | nil => simp [aupdate, alookup]
  | cons kv rest ih =>
    obtain ⟨a, b⟩ := kv
    by_cases hak : a = k
    · subst hak
      by_cases hkk : a = k'
      · subst hkk; simp [aupdate, alookup]
      · simp [aupdate, alookup, hkk]
    · by_cases hak' : a = k'
      · subst hak'
        have hk' : k ≠ a := fun h => hak h.symm
        simp [aupdate, alookup, hak, hk']
      · simp [aupdate, alookup, hak, hak', ih]

theorem akeys_aupdate (k : List Char) (f : IntRec → IntRec) (m : IntDict) :
    akeys (aupdate k f m) = akeys m := by
  induction m with
  | nil => rfl
  | cons kv rest ih =>
    obtain ⟨a, b⟩ := kv
    by_cases hak : a = k <;> simp [aupdate, akeys, hak] <;>
      simpa [akeys] using ih

theorem alookup_eq_none_iff (k : List Char) (m : IntDict) :
    alookup k m = none ↔ k ∉ akeys m := by
  induction m with
  | nil => simp [alookup, akeys]
  | cons kv rest ih =>
    obtain ⟨a, b⟩ := kv
    by_cases hak : a = k
    · subst hak; simp [alookup, akeys]
    · simp [alookup, akeys, hak, ih, Ne.symm hak]

theorem akeys_cons (a : List Char) (b : IntRec) (rest : IntDict) :
    akeys ((a, b) :: rest) = a :: akeys rest := rfl

theorem akeys_ainsert (k : List Char) (v : IntRec) (m : IntDict) :
    akeys (ainsert k v m) =
      if k ∈ akeys m then akeys m else akeys m ++ [k] := by
  induction m with
  | nil => simp [ainsert, akeys]
  | cons kv rest ih =>
    obtain ⟨a, b⟩ := kv
    by_cases hak : a = k
    · subst hak
      have h1 : ainsert a v ((a, b) :: rest) = (a, v) :: rest := by
        simp [ainsert]
      rw [h1, akeys_cons, akeys_cons, if_pos (List.mem_cons_self _ _)]
    · have h1 : ainsert k v ((a, b) :: rest) = (a, b) :: ainsert k v rest := by
        simp [ainsert, hak]
      have hcond : (k ∈ akeys ((a, b) :: rest)) ↔ k ∈ akeys rest := by
        rw [akeys_cons, List.mem_cons]
        constructor
        · rintro (h2 | h2)
          · exact absurd h2.symm hak
          · exact h2
        · exact fun h2 => Or.inr h2
      rw [h1, akeys_cons]
      by_cases hk : k ∈ akeys rest
      · rw [if_pos (hcond.mpr hk), ih, if_pos hk, akeys_cons]
      · rw [if_neg (fun h2 => hk (hcond.mp h2)), ih, if_neg hk, akeys_cons,
          List.cons_append]

theorem mem_akeys_ainsert (k k' : List Char) (v : IntRec) (m : IntDict) :
    k' ∈ akeys (ainsert k v m) ↔ k' ∈ akeys m ∨ k' = k := by
  rw [akeys_ainsert]
  by_cases h : k ∈ akeys m
  · rw [if_pos h]
    constructor
    · exact fun h1 => Or.inl h1
    · rintro (h1 | h1)
      · exact h1
      · rw [h1]; exact h
  · rw [if_neg h]
    simp [List.mem_append]

theorem nodup_ainsert (k : List Char) (v : IntRec) (m : IntDict)
    (h : NoDupKeys m) : NoDupKeys (ainsert k v m) := by
  unfold NoDupKeys at h ⊢
  rw [akeys_ainsert]
  by_cases hk : k ∈ akeys m
  · rwa [if_pos hk]
  · rw [if_neg hk]
    simpa [List.nodup_append] using ⟨h, fun h1 => hk h1⟩

theorem insertAll_cons (k : List Char) (v : IntRec)
    (ps : List (List Char × IntRec)) (m : IntDict) :
    insertAll m ((k, v) :: ps) = insertAll (ainsert k v m) ps := rfl

theorem alookup_insertAll (ps : List (List Char × IntRec)) :
    ∀ (m : IntDict) (k : List Char),
      alookup k (insertAll m ps) =
        match lastAssoc ps k with
        | some v => some v
        | none => alookup k m := by
  induction ps with
  | nil => intro m k; simp [insertAll, lastAssoc]
  | cons kv rest ih =>
    intro m k
    obtain ⟨k0, v0⟩ := kv
    rw [insertAll_cons, ih]
    cases hla : lastAssoc rest k with
    | some v => simp [lastAssoc, hla]
    | none =>
      simp only [lastAssoc, hla]
      rw [alookup_ainsert]
      by_cases h : k0 = k
      · simp [h]
      · simp [h]

theorem nodup_insertAll (ps : List (List Char × IntRec)) :
    ∀ (m : IntDict), NoDupKeys m → NoDupKeys (insertAll m ps) := by
  induction ps with
  | nil => intro m h; simpa [insertAll] using h
  | cons kv rest ih =>
    intro m h
    obtain ⟨k0, v0⟩ := kv
    rw [insertAll_cons]
    exact ih _ (nodup_ainsert _ _ _ h)

theorem dict_eq_of_keys_lookup (m : IntDict) :
    ∀ (m' : IntDict), akeys m' = akeys m → NoDupKeys m →
      (∀ k, alookup k m' = alookup k m) → m' = m := by
  induction m with
  | nil =>
    intro m' hk _ _
    cases m' with
    | nil => rfl
    | cons kv rest => simp [akeys] at hk
  | cons kv rest ih =>
    intro m' hk hnd hl
    obtain ⟨a, b⟩ := kv
    cases m' with
    | nil => simp [akeys] at hk
    | cons kv' rest' =>
      obtain ⟨a', b'⟩ := kv'
      rw [akeys_cons, akeys_cons] at hk
      obtain ⟨ha, hrest⟩ := List.cons.inj hk
      subst ha
      have hb : b' = b := by
        have h1 := hl a'
        simpa [alookup] using h1
      subst hb
      rw [NoDupKeys, akeys_cons, List.nodup_cons] at hnd
      have htail : rest' = rest := by
        refine ih rest' hrest hnd.2 ?_
        intro k
        by_cases hka : k = a'
        · subst hka
          have h1 : alookup k rest = none :=
            (alookup_eq_none_iff k rest).mpr hnd.1
          have h2 : alookup k rest' = none := by
            refine (alookup_eq_none_iff k rest').mpr ?_
            rw [hrest]
            exact hnd.1
          rw [h1, h2]
        · have h1 := hl k
          have hne : a' ≠ k := fun h => hka h.symm
          simpa [alookup, hne] using h1
      rw [htail]

theorem lastAssoc_eq_none (ps : List (List Char × IntRec)) (k : List Char)
    (h : ∀ kv ∈ ps, kv.1 ≠ k) : lastAssoc ps k = none := by
  induction ps with
  | nil => rfl
  | cons kv rest ih =>
    obtain ⟨k0, v0⟩ := kv
    have h0 : k0 ≠ k := h (k0, v0) (List.mem_cons_self _ _)
    have hrest := ih (fun kv hkv => h kv (List.mem_cons_of_mem _ hkv))
    simp [lastAssoc, hrest, h0]

theorem insertAll_restore (ps : List (List Char × IntRec)) :
    ∀ (m m' : IntDict), akeys m' = akeys m → NoDupKeys m →
      (∀ k, lastAssoc ps k = none → alookup k m' = alookup k m) →
      (∀ k v, lastAssoc ps k = some v → alookup k m = some v) →
      insertAll m' ps = m := by
  induction ps with
  | nil =>
    intro m m' hkeys hnd hnone _
    exact dict_eq_of_keys_lookup m m' hkeys hnd
      (fun k => hnone k rfl)
  | cons kv rest ih =>
    intro m m' hkeys hnd hnone hsome
    obtain ⟨k0, v0⟩ := kv
    rw [insertAll_cons]
    have hk0m : k0 ∈ akeys m := by
      have : ∃ w, lastAssoc ((k0, v0) :: rest) k0 = some w := by
        cases hla : lastAssoc rest k0 with
        | some v => exact ⟨v, by simp [lastAssoc, hla]⟩
        | none => exact ⟨v0, by simp [lastAssoc, hla]⟩
      obtain ⟨w, hw⟩ := this
      have := hsome k0 w hw
      by_contra hmem
      rw [(alookup_eq_none_iff k0 m).mpr hmem] at this
      exact Option.noConfusion this
    refine ih m (ainsert k0 v0 m') ?_ hnd ?_ ?_
    · rw [akeys_ainsert, if_pos (hkeys ▸ hk0m), hkeys]
    · intro k hk
      by_cases hkk : k = k0
      · subst hkk
        have hps : lastAssoc ((k, v0) :: rest) k = some v0 := by
          simp [lastAssoc, hk]
        rw [alookup_ainsert, if_pos rfl]
        exact (hsome k v0 hps).symm
      · have hne : k0 ≠ k := fun h => hkk h.symm
        rw [alookup_ainsert, if_neg hne]
        refine hnone k ?_
        simp [lastAssoc, hk, hne]
    · intro k v hk
      refine hsome k v ?_
      simp [lastAssoc, hk]

theorem insertAll_idem (ps : List (List Char × IntRec)) (m0 : IntDict)
    (h : NoDupKeys m0) :
    insertAll (insertAll m0 ps) ps = insertAll m0 ps := by
  refine insertAll_restore ps (insertAll m0 ps) (insertAll m0 ps) rfl
    (nodup_insertAll ps m0 h) (fun k _ => rfl) ?_
  intro k v hk
  rw [alookup_insertAll]
  simp [hk]

theorem foldl_preserve {α : Type} (P : IntDict → Prop)
    (f : IntDict → α → IntDict) (hf : ∀ m a, P m → P (f m a)) :
    ∀ (l : List α) (m : IntDict), P m → P (l.foldl f m) := by
  intro l
  induction l with
  | nil => intro m h; exact h
  | cons a rest ih => intro m h; exact ih _ (hf m a h)

theorem sameButDesc_refl (r : IntRec) : sameButDesc r r :=
  ⟨rfl, rfl, rfl, rfl⟩

theorem applyDesc_lookup (d : List Char) (m : IntDict) (k : List Char) :
    ((alookup k (applyDesc m d)).isSome = (alookup k m).isSome) ∧
    (∀ r', alookup k (applyDesc m d) = some r' →
      ∃ r, alookup k m = some r ∧ sameButDesc r r') := by
  unfold applyDesc
  refine foldl_preserve
    (fun m' => ((alookup k m').isSome = (alookup k m).isSome) ∧
      (∀ r', alookup k m' = some r' →
        ∃ r, alookup k m = some r ∧ sameButDesc r r'))
    _ ?_ (descLinesOf d) m
    ⟨rfl, fun r' h => ⟨r', h, sameButDesc_refl r'⟩⟩
  intro m' l hP
  dsimp only
  by_cases hmem : amember (pstrip (pslice 0 8 l)) m' = true
  · rw [if_pos hmem]
    constructor
    · rw [alookup_aupdate]
      by_cases hk : pstrip (pslice 0 8 l) = k
      · rw [if_pos hk]
        rw [Option.isSome_map']
        exact hP.1
      · rw [if_neg hk]
        exact hP.1
    · intro r' hr'
      rw [alookup_aupdate] at hr'
      by_cases hk : pstrip (pslice 0 8 l) = k
      · rw [if_pos hk] at hr'
        obtain ⟨r1, hr1, hfr1⟩ := Option.map_eq_some'.mp hr'
        obtain ⟨r, hr, hsame⟩ := hP.2 r1 hr1
        refine ⟨r, hr, ?_⟩
        rw [← hfr1]
        exact hsame
      · rw [if_neg hk] at hr'
        exact hP.2 r' hr'
  · rw [if_neg hmem]
    exact hP

/-! ## Claims C6-C10: the interface-status parser -/

/-- C6: a status-table line whose fixed columns `[0:8)`, `[10:29)`,
`[29:39)`, `[42:47)`, `[60:66)` hold `Gi1/0/1`, `uplink-sw`, `connected`,
`10`, `1000` parses to exactly the claimed record, with the
auto-negotiation markers of the speed column normalised and power
initialised to `-`. -/
theorem claim6_fixed_columns (line : List Char)
    (hname : pstrip (pslice 0 8 line) = ofS "Gi1/0/1")
    (hdesc : pstrip (pslice 10 29 line) = ofS "uplink-sw")
    (hstat : pstrip (pslice 29 39 line) = ofS "connected")
    (hvlan : pstrip (pslice 42 47 line) = ofS "10")
    (hspeed : pstrip (pslice 60 66 line) = ofS "1000") :
    parseStatusLine line =
      (ofS "Gi1/0/1",
       { description := ofS "uplink-sw", status := ofS "connected",
         vlan := ofS "10", speed := ofS "1000", power := ofS "-" }) := by
  unfold parseStatusLine
  rw [hname, hdesc, hstat, hvlan, hspeed]
  rfl

theorem claim6_fixed_columns_witness :
    parseStatusLine sampleLine =
      (ofS "Gi1/0/1",
       { description := ofS "uplink-sw", status := ofS "connected",
         vlan := ofS "10", speed := ofS "1000", power := ofS "-" }) :=
  claim6_fixed_columns sampleLine rfl rfl rfl rfl rfl

/-- C7: the full-description merge of `get_int_status` preserves the key
set of the base table (a name only in the description output stays absent)
and changes nothing but descriptions of existing entries. -/
theorem claim7_desc_merge (m0 : IntDict) (s d : List Char) :
    (∀ k, (alookup k (applyDesc (applyStatus m0 s) d)).isSome =
      (alookup k (applyStatus m0 s)).isSome) ∧
    (∀ k r', alookup k (applyDesc (applyStatus m0 s) d) = some r' →
      ∃ r, alookup k (applyStatus m0 s) = some r ∧ sameButDesc r r') :=
  ⟨fun k => (applyDesc_lookup d (applyStatus m0 s) k).1,
   fun k => (applyDesc_lookup d (applyStatus m0 s) k).2⟩

theorem claim7_desc_merge_witness :
    (alookup (ofS "Gi1/0/9")
      (applyDesc (applyStatus [] sampleStatusResp) sampleStatusResp2)).isSome =
    (alookup (ofS "Gi1/0/9") (applyStatus [] sampleStatusResp)).isSome :=
  (claim7_desc_merge [] sampleStatusResp sampleStatusResp2).1 (ofS "Gi1/0/9")

/-- C8: re-parsing the same status text on the same session returns a
dictionary identical to the one the first parse produced. -/
theorem claim8_idempotent (m0 : IntDict) (hm : NoDupKeys m0) (s : List Char) :
    get_int_status (applyStatus m0 s) s false [] false [] =
      some (applyStatus m0 s) := by
  show some (applyStatus (applyStatus m0 s) s) = some (applyStatus m0 s)
  unfold applyStatus
  rw [insertAll_idem ((statusLinesOf s).map parseStatusLine) m0 hm]

theorem claim8_idempotent_witness :
    NoDupKeys ([] : IntDict) ∧
    get_int_status (applyStatus [] sampleStatusResp) sampleStatusResp
      false [] false [] = some (applyStatus [] sampleStatusResp) :=
  ⟨List.nodup_nil, claim8_idempotent [] List.nodup_nil sampleStatusResp⟩

/-- C9: `self.int_status` is never cleared: an entry parsed by an earlier
`get_int_status` call whose name does not occur in the next call's output
is still present, unchanged, in the dictionary the next call returns. -/
theorem claim9_persistence (m0 : IntDict) (s1 s2 k : List Char) (r : IntRec)
    (h1 : alookup k (applyStatus m0 s1) = some r)
    (h2 : ∀ l ∈ statusLinesOf s2, pstrip (pslice 0 8 l) ≠ k) :
    ∃ m2, get_int_status (applyStatus m0 s1) s2 false [] false [] =
      some m2 ∧ alookup k m2 = some r := by
  refine ⟨applyStatus (applyStatus m0 s1) s2, rfl, ?_⟩
  unfold applyStatus
  rw [alookup_insertAll]
  have hnone : lastAssoc ((statusLinesOf s2).map parseStatusLine) k = none := by
    apply lastAssoc_eq_none
    intro kv hkv
    obtain ⟨l, hl, hkv'⟩ := List.mem_map.mp hkv
    rw [← hkv']
    exact h2 l hl
  rw [hnone]
  exact h1

theorem claim9_persistence_witness :
    ∃ m2, get_int_status (applyStatus [] sampleStatusResp) sampleStatusResp2
      false [] false [] = some m2 ∧
      alookup (ofS "Gi1/0/1") m2 =
        some { description := ofS "uplink-sw", status := ofS "connected",
               vlan := ofS "10", speed := ofS "1000", power := ofS "-" } :=
  claim9_persistence [] sampleStatusResp sampleStatusResp2 (ofS "Gi1/0/1")
    _ (by decide) (by decide)

/-- C10: with `get_power` and a power response of more than 5 lines, a
power row whose interface name is absent from the base table makes
`get_int_status` fail with a `KeyError` (modelled as `none`) instead of
ignoring the row: here `Gi1/0/2` has a power row but no base entry. -/
theorem claim10_power_keyerror :
    (splitlines samplePowerResp).length > 5 ∧
    alookup (ofS "Gi1/0/2") (applyStatus [] sampleStatusResp) = none ∧
    get_int_status [] sampleStatusResp false [] true samplePowerResp =
      none := by
  refine ⟨by decide, by decide, by decide⟩

/-! ## Transport lemmas and claim C2 -/

theorem leadsWith_append (pat s t : List Char)
    (h : leadsWith pat s = true) : leadsWith pat (s ++ t) = true := by
  induction pat generalizing s with
  | nil => rfl
  | cons a as ih =>
    cases s with
    | nil => simp [leadsWith] at h
    | cons b bs =>
      simp only [leadsWith, Bool.and_eq_true, decide_eq_true_eq] at h
      simp only [List.cons_append, leadsWith, Bool.and_eq_true,
        decide_eq_true_eq]
      exact ⟨h.1, ih bs h.2⟩

theorem leadsWith_refl (s : List Char) : leadsWith s s = true := by
  induction s with
  | nil => rfl
  | cons a as ih => simp [leadsWith, ih]

theorem leadsWith_take (pat s : List Char) (h : leadsWith pat s = true) :
    s.take pat.length = pat := by
  induction pat generalizing s with
  | nil => rfl
  | cons a as ih =>
    cases s with
    | nil => simp [leadsWith] at h
    | cons b bs =>
      simp only [leadsWith, Bool.and_eq_true, decide_eq_true_eq] at h
      simp only [List.length_cons, List.take_succ_cons, ih bs h.2,
        List.cons.injEq, and_true]
      exact h.1.symm

theorem matchEnd_eq (pat s : List Char) :
    matchEnd pat s =
      if leadsWith pat s then some pat.length
      else
        match s with
        | [] => none
        | _ :: t => (matchEnd pat t).map (· + 1) := by
  rw [matchEnd.eq_def]

theorem hasSub_append (pat s t : List Char) (h : hasSub pat s = true) :
    hasSub pat (s ++ t) = true := by
  unfold hasSub at h ⊢
  induction s with
  | nil =>
    rw [matchEnd_eq] at h
    by_cases hl : leadsWith pat [] = true
    · cases pat with
      | nil =>
        rw [List.nil_append, matchEnd_eq,
          if_pos (show leadsWith [] t = true from rfl)]
        rfl
      | cons a as => simp [leadsWith] at hl
    · rw [if_neg hl] at h
      simp at h
  | cons c cs ih =>
    rw [matchEnd_eq] at h
    by_cases hl : leadsWith pat (c :: cs) = true
    · rw [List.cons_append, matchEnd_eq,
        if_pos (by simpa using leadsWith_append pat (c :: cs) t hl)]
      rfl
    · rw [if_neg hl] at h
      simp only [Option.isSome_map'] at h
      have := ih h
      rw [List.cons_append, matchEnd_eq]
      by_cases hl2 : leadsWith pat (c :: (cs ++ t)) = true
      · rw [if_pos hl2]; rfl
      · rw [if_neg hl2]
        simpa using this

theorem trailsWith_cons (pat : List Char) (c : Char) (x : List Char)
    (h : trailsWith pat x = true) : trailsWith pat (c :: x) = true := by
  unfold trailsWith at h ⊢
  rw [List.reverse_cons]
  exact leadsWith_append _ _ _ h

theorem matchEnd_take (pat s : List Char) (e : Nat)
    (h : matchEnd pat s = some e) : trailsWith pat (s.take e) = true := by
  induction s generalizing e with
  | nil =>
    rw [matchEnd_eq] at h
    by_cases hl : leadsWith pat [] = true
    · rw [if_pos hl] at h
      cases pat with
      | nil =>
        simp only [Option.some.injEq, List.length_nil] at h
        subst h
        rfl
      | cons a as => simp [leadsWith] at hl
    · rw [if_neg hl] at h
      simp at h
  | cons c cs ih =>
    rw [matchEnd_eq] at h
    by_cases hl : leadsWith pat (c :: cs) = true
    · rw [if_pos hl] at h
      simp only [Option.some.injEq] at h
      subst h
      rw [leadsWith_take pat (c :: cs) hl]
      unfold trailsWith
      exact leadsWith_refl _
    · rw [if_neg hl] at h
      simp only at h
      cases hm : matchEnd pat cs with
      | none => rw [hm] at h; simp at h
      | some e' =>
        rw [hm] at h
        simp only [Option.map_some', Option.some.injEq] at h
        subst h
        rw [List.take_succ_cons]
        exact trailsWith_cons pat c _ (ih e' hm)

theorem expectStep_none_iff (pats : List (List Char)) :
    ∀ (i : Nat) (buf : List Char),
      expectStep i pats buf = none ↔ ∀ p ∈ pats, hasSub p buf = false := by
  induction pats with
  | nil => intro i buf; simp [expectStep]
  | cons p ps ih =>
    intro i buf
    rw [expectStep]
    cases hm : matchEnd p buf with
    | some e =>
      apply iff_of_false
      · simp
      · intro hall
        have h1 := hall p (List.mem_cons_self _ _)
        unfold hasSub at h1
        rw [hm] at h1
        simp at h1
    | none =>
      rw [ih]
      constructor
      · intro hall q hq
        rcases List.mem_cons.mp hq with h1 | h1
        · subst h1; unfold hasSub; rw [hm]; rfl
        · exact hall q h1
      · intro hall q hq
        exact hall q (List.mem_cons_of_mem _ hq)

theorem expectStep_some (pats : List (List Char)) :
    ∀ (i : Nat) (buf : List Char) (j e : Nat),
      expectStep i pats buf = some (j, e) →
      i ≤ j ∧ ∃ p, pats[j - i]? = some p ∧ matchEnd p buf = some e := by
  induction pats with
  | nil => intro i buf j e h; simp [expectStep] at h
  | cons p ps ih =>
    intro i buf j e h
    rw [expectStep] at h
    cases hm : matchEnd p buf with
    | some e0 =>
      rw [hm] at h
      simp only [Option.some.injEq, Prod.mk.injEq] at h
      obtain ⟨hj, he⟩ := h
      subst hj; subst he
      exact ⟨le_refl i, p, by simp, hm⟩
    | none =>
      rw [hm] at h
      obtain ⟨hle, q, hq, hqe⟩ := ih (i + 1) buf j e h
      refine ⟨Nat.le_of_succ_le hle, q, ?_, hqe⟩
      have hji : j - i = (j - (i + 1)) + 1 := by omega
      rw [hji]
      simpa using hq

theorem expectRun_none_iff (pats : List (List Char)) (chunks : List (List Char)) :
    ∀ (buf : List Char),
      (expectRun pats buf chunks).1 = none ↔
        ∀ p ∈ pats, hasSub p (buf ++ chunks.flatten) = false := by
  induction chunks with
  | nil =>
    intro buf
    rw [expectRun]
    cases hs : expectStep 0 pats buf with
    | some ie =>
      obtain ⟨i, e⟩ := ie
      dsimp only
      apply iff_of_false
      · simp
      · intro hall
        obtain ⟨-, p, hp, hpe⟩ := expectStep_some pats 0 buf i e hs
        have h1 := hall p (List.getElem?_mem (by simpa using hp))
        rw [List.flatten_nil, List.append_nil] at h1
        unfold hasSub at h1
        rw [hpe] at h1
        simp at h1
    | none =>
      dsimp only
      rw [List.flatten_nil, List.append_nil]
      simp only [true_iff]
      exact (expectStep_none_iff pats 0 buf).mp hs
  | cons c rest ih =>
    intro buf
    rw [expectRun]
    cases hs : expectStep 0 pats buf with
    | some ie =>
      obtain ⟨i, e⟩ := ie
      dsimp only
      apply iff_of_false
      · simp
      · intro hall
        obtain ⟨-, p, hp, hpe⟩ := expectStep_some pats 0 buf i e hs
        have h1 : hasSub p buf = true := by unfold hasSub; rw [hpe]; rfl
        have h2 := hasSub_append p buf ((c :: rest).flatten) h1
        have h3 := hall p (List.getElem?_mem (by simpa using hp))
        rw [h3] at h2
        exact Bool.noConfusion h2
    | none =>
      dsimp only
      rw [ih (buf ++ c), List.flatten_cons, List.append_assoc]

theorem expectRun_some_suffix (pats : List (List Char))
    (chunks : List (List Char)) :
    ∀ (buf : List Char) (i : Nat),
      (expectRun pats buf chunks).1 = some i →
      ∃ p, pats[i]? = some p ∧
        trailsWith p (expectRun pats buf chunks).2.1 = true := by
  induction chunks with
  | nil =>
    intro buf i h
    cases hs : expectStep 0 pats buf with
    | some je =>
      obtain ⟨j, e⟩ := je
      rw [expectRun, hs] at h ⊢
      dsimp only at h ⊢
      simp only [Option.some.injEq] at h
      subst h
      obtain ⟨-, p, hp, hpe⟩ := expectStep_some pats 0 buf j e hs
      exact ⟨p, by simpa using hp, matchEnd_take p buf e hpe⟩
    | none =>
      rw [expectRun, hs] at h
      dsimp only at h
      exact absurd h (by simp)
  | cons c rest ih =>
    intro buf i h
    cases hs : expectStep 0 pats buf with
    | some je =>
      obtain ⟨j, e⟩ := je
      rw [expectRun, hs] at h ⊢
      dsimp only at h ⊢
      simp only [Option.some.injEq] at h
      subst h
      obtain ⟨-, p, hp, hpe⟩ := expectStep_some pats 0 buf j e hs
      exact ⟨p, by simpa using hp, matchEnd_take p buf e hpe⟩
    | none =>
      rw [expectRun, hs] at h ⊢
      dsimp only at h ⊢
      exact ih (buf ++ c) i h

/-- C2 counterexample: with the auth patterns enabled, a single arriving
chunk `"a>b"` makes `read_output` return immediately (pattern index 0
matched), although the accumulated stream neither ends with `>` nor with
`#` nor contains `sername:` or `assword:` — the `>` and `#` patterns are
matched anywhere in the stream, not only at its end. -/
theorem claim2_counterexample :
    (expectRun (expectedPats true) [] [ofS "a>b"]).1 = some 0 ∧
    endsWithChar '>' (ofS "a>b") = false ∧
    endsWithChar '#' (ofS "a>b") = false ∧
    hasSub (ofS "sername:") (ofS "a>b") = false ∧
    hasSub (ofS "assword:") (ofS "a>b") = false := by
  refine ⟨by decide, by decide, by decide, by decide, by decide⟩

/-- C2 (amended): the candidate patterns of `read_output` are the
*containment* patterns `>`, `#` and, with `password_prompt`, `sername:`
and `assword:`; the read returns without timeout exactly when one of them
occurs anywhere in the accumulated stream, and on a match the *returned
text* (the stream truncated at the match end) ends with the matched
pattern. -/
theorem claim2_amended (password_prompt : Bool) (chunks : List (List Char)) :
    (expectedPats false = [ofS ">", ofS "#"] ∧
     expectedPats true = [ofS ">", ofS "#", ofS "sername:", ofS "assword:"]) ∧
    ((expectRun (expectedPats password_prompt) [] chunks).1 = none ↔
      ∀ p ∈ expectedPats password_prompt,
        hasSub p chunks.flatten = false) ∧
    (∀ i, (expectRun (expectedPats password_prompt) [] chunks).1 = some i →
      ∃ p, (expectedPats password_prompt)[i]? = some p ∧
        trailsWith p
          (expectRun (expectedPats password_prompt) [] chunks).2.1 = true) := by
  refine ⟨⟨rfl, rfl⟩, ?_, ?_⟩
  · have h := expectRun_none_iff (expectedPats password_prompt) chunks []
    rw [List.nil_append] at h
    exact h
  · intro i h
    exact expectRun_some_suffix (expectedPats password_prompt) chunks [] i h

theorem claim2_amended_witness :
    ∃ p, (expectedPats true)[0]? = some p ∧
      trailsWith p (expectRun (expectedPats true) [] [ofS "sw1>"]).2.1 = true :=
  (claim2_amended true [ofS "sw1>"]).2.2 0 (by decide)

/-! ## Login-loop lemmas and claims C1, C4, C5 -/

theorem loginUserPhase_shape (u : List Char) (uL : List (List Char))
    (retries : Nat) (response : List Char) (responses : List (List Char)) :
    (hasSub (ofS "User") response = false ∧
      loginUserPhase u uL retries response responses =
        .inr ([], response, responses)) ∨
    (hasSub (ofS "User") response = true ∧
      loginUserPhase u uL retries response responses =
        .inl (.interactive, [])) ∨
    (hasSub (ofS "User") response = true ∧
      loginUserPhase u uL retries response responses = .inl (.crash, [])) ∨
    (hasSub (ofS "User") response = true ∧
      ∃ c, uL[retries]? = some c ∧ responses = [] ∧
        loginUserPhase u uL retries response responses =
          .inl (.noData, [.user retries c])) ∨
    (hasSub (ofS "User") response = true ∧
      ∃ c r rest, uL[retries]? = some c ∧ responses = r :: rest ∧
        loginUserPhase u uL retries response responses =
          .inr ([.user retries c], r, rest)) := by
  unfold loginUserPhase
  by_cases hcue : hasSub (ofS "User") response = true
  · rw [if_pos hcue]
    by_cases hue : u.isEmpty = true
    · rw [if_pos hue]; tauto
    · rw [if_neg hue]
      cases hg : uL[retries]? with
      | none => tauto
      | some cred =>
        cases responses with
        | nil =>
          right; right; right; left
          exact ⟨hcue, cred, rfl, rfl, rfl⟩
        | cons r rest =>
          right; right; right; right
          exact ⟨hcue, cred, r, rest, rfl, rfl, rfl⟩
  · rw [if_neg hcue]
    left
    exact ⟨Bool.eq_false_iff.mpr hcue, rfl⟩

theorem loginPassPhase_shape (p : List Char) (uL pL : List (List Char))
    (retries : Nat) (response : List Char) (responses : List (List Char)) :
    (hasSub (ofS "Pass") response = false ∧
      loginPassPhase p uL pL retries response responses =
        .inr ([], response, responses)) ∨
    (hasSub (ofS "Pass") response = true ∧
      loginPassPhase p uL pL retries response responses =
        .inl (.interactive, [])) ∨
    (hasSub (ofS "Pass") response = true ∧ uL.length ≠ pL.length ∧
      loginPassPhase p uL pL retries response responses =
        .inl (.precondError, [])) ∨
    (hasSub (ofS "Pass") response = true ∧
      loginPassPhase p uL pL retries response responses =
        .inl (.crash, [])) ∨
    (hasSub (ofS "Pass") response = true ∧ uL.length = pL.length ∧
      ∃ c, pL[retries]? = some c ∧ responses = [] ∧
        loginPassPhase p uL pL retries response responses =
          .inl (.noData, [.pass retries c])) ∨
    (hasSub (ofS "Pass") response = true ∧ uL.length = pL.length ∧
      ∃ c r rest, pL[retries]? = some c ∧ responses = r :: rest ∧
        loginPassPhase p uL pL retries response responses =
          .inr ([.pass retries c], r, rest)) := by
  unfold loginPassPhase
  by_cases hcue : hasSub (ofS "Pass") response = true
  · rw [if_pos hcue]
    by_cases hpe : p.isEmpty = true
    · rw [if_pos hpe]; tauto
    · rw [if_neg hpe]
      by_cases hlen : uL.length ≠ pL.length
      · rw [if_pos hlen]; tauto
      · rw [if_neg hlen]
        push_neg at hlen
        cases hg : pL[retries]? with
        | none => tauto
        | some cred =>
          cases responses with
          | nil =>
            right; right; right; right; left
            exact ⟨hcue, hlen, cred, rfl, rfl, rfl⟩
          | cons r rest =>
            right; right; right; right; right
            exact ⟨hcue, hlen, cred, r, rest, rfl, rfl, rfl⟩
  · rw [if_neg hcue]
    left
    exact ⟨Bool.eq_false_iff.mpr hcue, rfl⟩

theorem follows_user_succ (i : Nat) (c : List Char) (e : Ev)
    (h : evIdx e = i + 1) : follows (Ev.user i c) e := by
  cases e with
  | user j d => simp only [evIdx] at h; simp [follows, h]
  | pass j d => simp only [evIdx] at h; simp [follows, h]

theorem follows_pass_succ (i : Nat) (c : List Char) (e : Ev)
    (h : evIdx e = i + 1) : follows (Ev.pass i c) e := by
  cases e with
  | user j d => simp only [evIdx] at h; simp [follows, evIdx, h]
  | pass j d => simp only [evIdx] at h; simp [follows, evIdx, h]

theorem chain'_cons_of_head (e0 : Ev) (tr' : List Ev)
    (h2 : List.Chain' follows tr')
    (hf : ∀ e' l', tr' = e' :: l' → follows e0 e') :
    List.Chain' follows (e0 :: tr') := by
  cases tr' with
  | nil => exact List.chain'_singleton e0
  | cons a l => exact List.chain'_cons.mpr ⟨hf a l rfl, h2⟩

theorem traceProps_user (uL pL : List (List Char)) (retries : Nat)
    (c : List Char) (tr' : List Ev) (hc : uL[retries]? = some c)
    (h1 : ∀ e ∈ tr', payloadOK uL pL e)
    (h2 : List.Chain' follows tr')
    (h3 : ∀ e rest', tr' = e :: rest' → evIdx e = retries + 1) :
    (∀ e ∈ Ev.user retries c :: tr', payloadOK uL pL e) ∧
    List.Chain' follows (Ev.user retries c :: tr') ∧
    (∀ e rest', Ev.user retries c :: tr' = e :: rest' → evIdx e = retries) := by
  refine ⟨?_, ?_, ?_⟩
  · intro e he
    rcases List.mem_cons.mp he with he | he
    · subst he; exact hc
    · exact h1 e he
  · exact chain'_cons_of_head _ _ h2
      (fun e' l' hl => follows_user_succ retries c e' (h3 e' l' hl))
  · intro e rest' heq
    rw [List.cons.injEq] at heq
    rw [← heq.1]
    rfl

theorem traceProps_pass (uL pL : List (List Char)) (retries : Nat)
    (c : List Char) (tr' : List Ev) (hc : pL[retries]? = some c)
    (h1 : ∀ e ∈ tr', payloadOK uL pL e)
    (h2 : List.Chain' follows tr')
    (h3 : ∀ e rest', tr' = e :: rest' → evIdx e = retries + 1) :
    (∀ e ∈ Ev.pass retries c :: tr', payloadOK uL pL e) ∧
    List.Chain' follows (Ev.pass retries c :: tr') ∧
    (∀ e rest', Ev.pass retries c :: tr' = e :: rest' → evIdx e = retries) := by
  refine ⟨?_, ?_, ?_⟩
  · intro e he
    rcases List.mem_cons.mp he with he | he
    · subst he; exact hc
    · exact h1 e he
  · exact chain'_cons_of_head _ _ h2
      (fun e' l' hl => follows_pass_succ retries c e' (h3 e' l' hl))
  · intro e rest' heq
    rw [List.cons.injEq] at heq
    rw [← heq.1]
    rfl

theorem traceProps_userpass (uL pL : List (List Char)) (retries : Nat)
    (c c' : List Char) (tr' : List Ev)
    (hc : uL[retries]? = some c) (hc' : pL[retries]? = some c')
    (h1 : ∀ e ∈ tr', payloadOK uL pL e)
    (h2 : List.Chain' follows tr')
    (h3 : ∀ e rest', tr' = e :: rest' → evIdx e = retries + 1) :
    (∀ e ∈ Ev.user retries c :: Ev.pass retries c' :: tr',
      payloadOK uL pL e) ∧
    List.Chain' follows (Ev.user retries c :: Ev.pass retries c' :: tr') ∧
    (∀ e rest', Ev.user retries c :: Ev.pass retries c' :: tr' = e :: rest' →
      evIdx e = retries) := by
  obtain ⟨p1, p2, p3⟩ := traceProps_pass uL pL retries c' tr' hc' h1 h2 h3
  refine ⟨?_, ?_, ?_⟩
  · intro e he
    rcases List.mem_cons.mp he with he | he
    · subst he; exact hc
    · exact p1 e he
  · refine List.chain'_cons.mpr ⟨?_, p2⟩
    simp [follows]
  · intro e rest' heq
    rw [List.cons.injEq] at heq
    rw [← heq.1]
    rfl

theorem loginLoop_zero (u p : List Char) (uL pL : List (List Char))
    (retries : Nat) (response : List Char) (responses : List (List Char)) :
    loginLoop u p uL pL 0 retries response responses =
      loginIter u p uL pL retries response responses false
        (fun _ _ => (.authError, [])) := rfl

theorem loginLoop_one (u p : List Char) (uL pL : List (List Char))
    (retries : Nat) (response : List Char) (responses : List (List Char)) :
    loginLoop u p uL pL 1 retries response responses =
      loginIter u p uL pL retries response responses false
        (fun _ _ => (.authError, [])) := rfl

theorem loginLoop_succ2 (u p : List Char) (uL pL : List (List Char))
    (g retries : Nat) (response : List Char)
    (responses : List (List Char)) :
    loginLoop u p uL pL (g + 2) retries response responses =
      loginIter u p uL pL retries response responses true
        (fun r2 rs2 => loginLoop u p uL pL (g + 1) (retries + 1) r2 rs2) :=
  rfl

theorem loginIter_trace (u p : List Char) (uL pL : List (List Char))
    (retries : Nat) (response : List Char) (responses : List (List Char))
    (canRetry : Bool) (k : List Char → List (List Char) → LOut × List Ev)
    (out : LOut) (tr : List Ev)
    (hk : ∀ r2 rs2 out' tr', k r2 rs2 = (out', tr') →
      (∀ e ∈ tr', payloadOK uL pL e) ∧
      List.Chain' follows tr' ∧
      (∀ e rest', tr' = e :: rest' → evIdx e = retries + 1) ∧
      (uL.length ≠ pL.length → ∀ i c, Ev.pass i c ∉ tr') ∧
      (hasSub (ofS "User") r2 = false → hasSub (ofS "Pass") r2 = false →
        tr' = []))
    (heq : loginIter u p uL pL retries response responses canRetry k =
      (out, tr)) :
    (∀ e ∈ tr, payloadOK uL pL e) ∧
    List.Chain' follows tr ∧
    (∀ e rest', tr = e :: rest' → evIdx e = retries) ∧
    (uL.length ≠ pL.length → ∀ i c, Ev.pass i c ∉ tr) ∧
    (hasSub (ofS "User") response = false →
      hasSub (ofS "Pass") response = false → tr = []) := by
  rw [loginIter] at heq
  have hnil3 : ∀ (e : Ev) (rest' : List Ev), ([] : List Ev) = e :: rest' →
      evIdx e = retries + 1 := by intro e rest' h; cases h
  rcases loginUserPhase_shape u uL retries response responses with
    ⟨hcue1, h1⟩ | ⟨hcue1, h1⟩ | ⟨hcue1, h1⟩ |
    ⟨hcue1, c, hc, hrs, h1⟩ | ⟨hcue1, c, r1, rest1, hc, hrs, h1⟩
  · -- no username cue: phase 1 passes through
    rw [h1] at heq
    dsimp only at heq
    rcases loginPassPhase_shape p uL pL retries response responses with
      ⟨hcue2, h2⟩ | ⟨hcue2, h2⟩ | ⟨hcue2, hmm, h2⟩ | ⟨hcue2, h2⟩ |
      ⟨hcue2, hlen, c2, hc2, hrs2, h2⟩ |
      ⟨hcue2, hlen, c2, r2, rest2, hc2, hrs2, h2⟩
    · -- no password cue either: success / retry / exhaust on same response
      rw [h2] at heq
      dsimp only at heq
      by_cases hgt : endsWithChar '>' response = true
      · rw [if_pos hgt] at heq
        cases heq
        simp [List.chain'_nil]
      · rw [if_neg hgt] at heq
        by_cases hht : endsWithChar '#' response = true
        · rw [if_pos hht] at heq
          cases heq
          simp [List.chain'_nil]
        · rw [if_neg hht] at heq
          by_cases hcr : canRetry = true
          · rw [if_pos hcr] at heq
            obtain ⟨out2, tr2, hrec⟩ : ∃ o t, k response responses = (o, t) :=
              ⟨_, _, rfl⟩
            rw [hrec] at heq
            dsimp only at heq
            obtain ⟨_, _, _, _, p5⟩ := hk response responses out2 tr2 hrec
            cases heq
            have htr2 : tr2 = [] := p5 hcue1 hcue2
            subst htr2
            simp [List.chain'_nil]
          · rw [if_neg hcr] at heq
            cases heq
            simp [List.chain'_nil]
    · rw [h2] at heq
      dsimp only at heq
      cases heq
      simp [List.chain'_nil]
    · rw [h2] at heq
      dsimp only at heq
      cases heq
      simp [List.chain'_nil]
    · rw [h2] at heq
      dsimp only at heq
      cases heq
      simp [List.chain'_nil]
    · -- password sent, oracle empty
      rw [h2] at heq
      dsimp only at heq
      cases heq
      obtain ⟨q1, q2, q3⟩ := traceProps_pass uL pL retries c2 [] hc2
        (by simp) List.chain'_nil hnil3
      refine ⟨q1, q2, q3, fun hmm => absurd hlen hmm, ?_⟩
      intro _ hfp
      rw [hcue2] at hfp
      cases hfp
    · -- password sent, loop continues on the next response
      rw [h2] at heq
      dsimp only at heq
      by_cases hgt : endsWithChar '>' r2 = true
      · rw [if_pos hgt] at heq
        cases heq
        obtain ⟨q1, q2, q3⟩ := traceProps_pass uL pL retries c2 [] hc2
          (by simp) List.chain'_nil hnil3
        refine ⟨q1, q2, q3, fun hmm => absurd hlen hmm, ?_⟩
        intro _ hfp
        rw [hcue2] at hfp
        cases hfp
      · rw [if_neg hgt] at heq
        by_cases hht : endsWithChar '#' r2 = true
        · rw [if_pos hht] at heq
          cases heq
          obtain ⟨q1, q2, q3⟩ := traceProps_pass uL pL retries c2 [] hc2
            (by simp) List.chain'_nil hnil3
          refine ⟨q1, q2, q3, fun hmm => absurd hlen hmm, ?_⟩
          intro _ hfp
          rw [hcue2] at hfp
          cases hfp
        · rw [if_neg hht] at heq
          by_cases hcr : canRetry = true
          · rw [if_pos hcr] at heq
            obtain ⟨out2, tr2, hrec⟩ : ∃ o t, k r2 rest2 = (o, t) :=
              ⟨_, _, rfl⟩
            rw [hrec] at heq
            dsimp only at heq
            obtain ⟨p1, p2, p3, p4, _⟩ := hk r2 rest2 out2 tr2 hrec
            cases heq
            obtain ⟨q1, q2, q3⟩ := traceProps_pass uL pL retries c2 tr2 hc2
              p1 p2 p3
            refine ⟨q1, q2, q3, fun hmm => absurd hlen hmm, ?_⟩
            intro _ hfp
            rw [hcue2] at hfp
            cases hfp
          · rw [if_neg hcr] at heq
            cases heq
            obtain ⟨q1, q2, q3⟩ := traceProps_pass uL pL retries c2 [] hc2
              (by simp) List.chain'_nil hnil3
            refine ⟨q1, q2, q3, fun hmm => absurd hlen hmm, ?_⟩
            intro _ hfp
            rw [hcue2] at hfp
            cases hfp
  · -- interactive username prompt
    rw [h1] at heq
    dsimp only at heq
    cases heq
    simp [List.chain'_nil]
  · -- username index out of range
    rw [h1] at heq
    dsimp only at heq
    cases heq
    simp [List.chain'_nil]
  · -- username sent, oracle empty
    rw [h1] at heq
    dsimp only at heq
    cases heq
    obtain ⟨q1, q2, q3⟩ := traceProps_user uL pL retries c [] hc
      (by simp) List.chain'_nil hnil3
    refine ⟨q1, q2, q3, ?_, ?_⟩
    · intro _ i cc hmem
      rcases List.mem_cons.mp hmem with hmem | hmem
      · cases hmem
      · cases hmem
    · intro hfu _
      rw [hcue1] at hfu
      cases hfu
  · -- username sent, continue with the next response
    rw [h1] at heq
    dsimp only at heq
    rcases loginPassPhase_shape p uL pL retries r1 rest1 with
      ⟨hcue2, h2⟩ | ⟨hcue2, h2⟩ | ⟨hcue2, hmm, h2⟩ | ⟨hcue2, h2⟩ |
      ⟨hcue2, hlen, c2, hc2, hrs2, h2⟩ |
      ⟨hcue2, hlen, c2, r2, rest2, hc2, hrs2, h2⟩
    · -- no password cue: success / retry / exhaust on r1
      rw [h2] at heq
      dsimp only at heq
      simp only [List.singleton_append] at heq
      by_cases hgt : endsWithChar '>' r1 = true
      · rw [if_pos hgt] at heq
        cases heq
        obtain ⟨q1, q2, q3⟩ := traceProps_user uL pL retries c [] hc
          (by simp) List.chain'_nil hnil3
        refine ⟨q1, q2, q3, ?_, ?_⟩
        · intro _ i cc hmem
          rcases List.mem_cons.mp hmem with hmem | hmem
          · cases hmem
          · cases hmem
        · intro hfu _
          rw [hcue1] at hfu
          cases hfu
      · rw [if_neg hgt] at heq
        by_cases hht : endsWithChar '#' r1 = true
        · rw [if_pos hht] at heq
          cases heq
          obtain ⟨q1, q2, q3⟩ := traceProps_user uL pL retries c [] hc
            (by simp) List.chain'_nil hnil3
          refine ⟨q1, q2, q3, ?_, ?_⟩
          · intro _ i cc hmem
            rcases List.mem_cons.mp hmem with hmem | hmem
            · cases hmem
            · cases hmem
          · intro hfu _
            rw [hcue1] at hfu
            cases hfu
        · rw [if_neg hht] at heq
          by_cases hcr : canRetry = true
          · rw [if_pos hcr] at heq
            obtain ⟨out2, tr2, hrec⟩ : ∃ o t, k r1 rest1 = (o, t) :=
              ⟨_, _, rfl⟩
            rw [hrec] at heq
            dsimp only at heq
            obtain ⟨p1, p2, p3, p4, _⟩ := hk r1 rest1 out2 tr2 hrec
            cases heq
            obtain ⟨q1, q2, q3⟩ := traceProps_user uL pL retries c tr2 hc
              p1 p2 p3
            refine ⟨q1, q2, q3, ?_, ?_⟩
            · intro hmm i cc hmem
              rcases List.mem_cons.mp hmem with hmem | hmem
              · cases hmem
              · exact p4 hmm i cc hmem
            · intro hfu _
              rw [hcue1] at hfu
              cases hfu
          · rw [if_neg hcr] at heq
            cases heq
            obtain ⟨q1, q2, q3⟩ := traceProps_user uL pL retries c [] hc
              (by simp) List.chain'_nil hnil3
            refine ⟨q1, q2, q3, ?_, ?_⟩
            · intro _ i cc hmem
              rcases List.mem_cons.mp hmem with hmem | hmem
              · cases hmem
              · cases hmem
            · intro hfu _
              rw [hcue1] at hfu
              cases hfu
    · rw [h2] at heq
      dsimp only at heq
      simp only [List.append_nil] at heq
      cases heq
      obtain ⟨q1, q2, q3⟩ := traceProps_user uL pL retries c [] hc
        (by simp) List.chain'_nil hnil3
      refine ⟨q1, q2, q3, ?_, ?_⟩
      · intro _ i cc hmem
        rcases List.mem_cons.mp hmem with hmem | hmem
        · cases hmem
        · cases hmem
      · intro hfu _
        rw [hcue1] at hfu
        cases hfu
    · rw [h2] at heq
      dsimp only at heq
      simp only [List.append_nil] at heq
      cases heq
      obtain ⟨q1, q2, q3⟩ := traceProps_user uL pL retries c [] hc
        (by simp) List.chain'_nil hnil3
      refine ⟨q1, q2, q3, ?_, ?_⟩
      · intro _ i cc hmem
        rcases List.mem_cons.mp hmem with hmem | hmem
        · cases hmem
        · cases hmem
      · intro hfu _
        rw [hcue1] at hfu
        cases hfu
    · rw [h2] at heq
      dsimp only at heq
      simp only [List.append_nil] at heq
      cases heq
      obtain ⟨q1, q2, q3⟩ := traceProps_user uL pL retries c [] hc
        (by simp) List.chain'_nil hnil3
      refine ⟨q1, q2, q3, ?_, ?_⟩
      · intro _ i cc hmem
        rcases List.mem_cons.mp hmem with hmem | hmem
        · cases hmem
        · cases hmem
      · intro hfu _
        rw [hcue1] at hfu
        cases hfu
    · -- user sent, password sent, oracle empty
      rw [h2] at heq
      dsimp only at heq
      simp only [List.singleton_append] at heq
      cases heq
      obtain ⟨q1, q2, q3⟩ := traceProps_userpass uL pL retries c c2 [] hc hc2
        (by simp) List.chain'_nil hnil3
      refine ⟨q1, q2, q3, fun hmm => absurd hlen hmm, ?_⟩
      intro hfu _
      rw [hcue1] at hfu
      cases hfu
    · -- user sent, password sent, loop continues
      rw [h2] at heq
      dsimp only at heq
      simp only [List.singleton_append] at heq
      by_cases hgt : endsWithChar '>' r2 = true
      · rw [if_pos hgt] at heq
        cases heq
        obtain ⟨q1, q2, q3⟩ := traceProps_userpass uL pL retries c c2 []
          hc hc2 (by simp) List.chain'_nil hnil3
        refine ⟨q1, q2, q3, fun hmm => absurd hlen hmm, ?_⟩
        intro hfu _
        rw [hcue1] at hfu
        cases hfu
      · rw [if_neg hgt] at heq
        by_cases hht : endsWithChar '#' r2 = true
        · rw [if_pos hht] at heq
          cases heq
          obtain ⟨q1, q2, q3⟩ := traceProps_userpass uL pL retries c c2 []
            hc hc2 (by simp) List.chain'_nil hnil3
          refine ⟨q1, q2, q3, fun hmm => absurd hlen hmm, ?_⟩
          intro hfu _
          rw [hcue1] at hfu
          cases hfu
        · rw [if_neg hht] at heq
          by_cases hcr : canRetry = true
          · rw [if_pos hcr] at heq
            obtain ⟨out2, tr2, hrec⟩ : ∃ o t, k r2 rest2 = (o, t) :=
              ⟨_, _, rfl⟩
            rw [hrec] at heq
            dsimp only at heq
            obtain ⟨p1, p2, p3, p4, _⟩ := hk r2 rest2 out2 tr2 hrec
            cases heq
            obtain ⟨q1, q2, q3⟩ := traceProps_userpass uL pL retries c c2 tr2
              hc hc2 p1 p2 p3
            refine ⟨q1, q2, q3, fun hmm => absurd hlen hmm, ?_⟩
            intro hfu _
            rw [hcue1] at hfu
            cases hfu
          · rw [if_neg hcr] at heq
            cases heq
            obtain ⟨q1, q2, q3⟩ := traceProps_userpass uL pL retries c c2 []
              hc hc2 (by simp) List.chain'_nil hnil3
            refine ⟨q1, q2, q3, fun hmm => absurd hlen hmm, ?_⟩
            intro hfu _
            rw [hcue1] at hfu
            cases hfu

theorem loginLoop_trace (u p : List Char) (uL pL : List (List Char)) :
    ∀ (gas retries : Nat) (response : List Char)
      (responses : List (List Char)) (out : LOut) (tr : List Ev),
      loginLoop u p uL pL gas retries response responses = (out, tr) →
      (∀ e ∈ tr, payloadOK uL pL e) ∧
      List.Chain' follows tr ∧
      (∀ e rest', tr = e :: rest' → evIdx e = retries) ∧
      (uL.length ≠ pL.length → ∀ i c, Ev.pass i c ∉ tr) ∧
      (hasSub (ofS "User") response = false →
        hasSub (ofS "Pass") response = false → tr = []) := by
  intro gas
  induction gas using Nat.strong_induction_on with
  | _ gas ih =>
  intro retries response responses out tr heq
  have hdead : ∀ (r2 : List Char) (rs2 : List (List Char)) (out' : LOut)
      (tr' : List Ev),
      (fun (_ : List Char) (_ : List (List Char)) =>
        ((.authError : LOut), ([] : List Ev))) r2 rs2 = (out', tr') →
      (∀ e ∈ tr', payloadOK uL pL e) ∧
      List.Chain' follows tr' ∧
      (∀ e rest', tr' = e :: rest' → evIdx e = retries + 1) ∧
      (uL.length ≠ pL.length → ∀ i c, Ev.pass i c ∉ tr') ∧
      (hasSub (ofS "User") r2 = false → hasSub (ofS "Pass") r2 = false →
        tr' = []) := by
    intro r2 rs2 out' tr' h
    simp only at h
    cases h
    simp [List.chain'_nil]
  rcases gas with _ | gas1
  · rw [loginLoop_zero] at heq
    exact loginIter_trace u p uL pL retries response responses false _
      out tr hdead heq
  · rcases gas1 with _ | g
    · rw [loginLoop_one] at heq
      exact loginIter_trace u p uL pL retries response responses false _
        out tr hdead heq
    · rw [loginLoop_succ2] at heq
      refine loginIter_trace u p uL pL retries response responses true _
        out tr ?_ heq
      intro r2 rs2 out' tr' h
      exact ih (g + 1) (by omega) (retries + 1) r2 rs2 out' tr' h

theorem login_trace (u p : List Char) (responses : List (List Char))
    (out : LOut) (tr : List Ev)
    (heq : login u p responses = (out, tr)) :
    (∀ e ∈ tr, payloadOK (splitOnComma u) (splitOnComma p) e) ∧
    List.Chain' follows tr ∧
    (∀ e rest', tr = e :: rest' → evIdx e = 0) ∧
    ((splitOnComma u).length ≠ (splitOnComma p).length →
      ∀ i c, Ev.pass i c ∉ tr) := by
  rw [login.eq_def] at heq
  cases responses with
  | nil =>
    dsimp only at heq
    cases heq
    simp [List.chain'_nil]
  | cons r0 rest =>
    dsimp only at heq
    cases hl : (splitlines r0).getLast? with
    | none =>
      rw [hl] at heq
      dsimp only at heq
      cases heq
      simp [List.chain'_nil]
    | some l0 =>
      rw [hl] at heq
      dsimp only at heq
      obtain ⟨p1, p2, p3, p4, _⟩ := loginLoop_trace u p (splitOnComma u)
        (splitOnComma p) (splitOnComma u).length 0 l0 rest out tr heq
      exact ⟨p1, p2, p3, p4⟩

theorem loginIter_clean_prompt (u p : List Char) (uL pL : List (List Char))
    (retries : Nat) (r : List Char) (rs : List (List Char))
    (canRetry : Bool) (k : List Char → List (List Char) → LOut × List Ev)
    (hend : endsWithChar '>' r = true ∨ endsWithChar '#' r = true)
    (hu : hasSub (ofS "User") r = false)
    (hp : hasSub (ofS "Pass") r = false) :
    ∃ b hn, loginIter u p uL pL retries r rs canRetry k =
      (.success b hn, []) := by
  rw [loginIter]
  have h1 : loginUserPhase u uL retries r rs = .inr ([], r, rs) := by
    unfold loginUserPhase
    rw [hu]
    simp
  have h2 : loginPassPhase p uL pL retries r rs = .inr ([], r, rs) := by
    unfold loginPassPhase
    rw [hp]
    simp
  rw [h1]
  dsimp only
  rw [h2]
  dsimp only
  by_cases hgt : endsWithChar '>' r = true
  · rw [if_pos hgt]
    exact ⟨false, hostnameOf '>' r, rfl⟩
  · rcases hend with hend | hend
    · exact absurd hend hgt
    · rw [if_neg hgt, if_pos hend]
      exact ⟨true, hostnameOf '#' r, rfl⟩

theorem loginLoop_clean_prompt (u p : List Char) (uL pL : List (List Char))
    (gas retries : Nat) (r : List Char) (rs : List (List Char))
    (hend : endsWithChar '>' r = true ∨ endsWithChar '#' r = true)
    (hu : hasSub (ofS "User") r = false)
    (hp : hasSub (ofS "Pass") r = false) :
    ∃ b hn, loginLoop u p uL pL gas retries r rs = (.success b hn, []) := by
  rcases gas with _ | gas1
  · rw [loginLoop_zero]
    exact loginIter_clean_prompt u p uL pL retries r rs false _ hend hu hp
  · rcases gas1 with _ | g
    · rw [loginLoop_one]
      exact loginIter_clean_prompt u p uL pL retries r rs false _ hend hu hp
    · rw [loginLoop_succ2]
      exact loginIter_clean_prompt u p uL pL retries r rs true _ hend hu hp

theorem loginIter_precond (u p : List Char) (uL pL : List (List Char))
    (retries : Nat) (l0 : List Char) (rs : List (List Char))
    (canRetry : Bool) (k : List Char → List (List Char) → LOut × List Ev)
    (hu : hasSub (ofS "User") l0 = false)
    (hp : hasSub (ofS "Pass") l0 = true) (hne : p ≠ [])
    (hmm : uL.length ≠ pL.length) :
    loginIter u p uL pL retries l0 rs canRetry k = (.precondError, []) := by
  rw [loginIter]
  have h1 : loginUserPhase u uL retries l0 rs = .inr ([], l0, rs) := by
    unfold loginUserPhase
    rw [hu]
    simp
  have hpe : p.isEmpty = false := by
    cases p with
    | nil => exact absurd rfl hne
    | cons a as => rfl
  have h2 : loginPassPhase p uL pL retries l0 rs =
      .inl (.precondError, []) := by
    unfold loginPassPhase
    rw [hp, hpe]
    simp [hmm]
  rw [h1]
  dsimp only
  rw [h2]
  dsimp only
  rfl

theorem loginLoop_precond (u p : List Char) (uL pL : List (List Char))
    (gas retries : Nat) (l0 : List Char) (rs : List (List Char))
    (hu : hasSub (ofS "User") l0 = false)
    (hp : hasSub (ofS "Pass") l0 = true) (hne : p ≠ [])
    (hmm : uL.length ≠ pL.length) :
    loginLoop u p uL pL gas retries l0 rs = (.precondError, []) := by
  rcases gas with _ | gas1
  · rw [loginLoop_zero]
    exact loginIter_precond u p uL pL retries l0 rs false _ hu hp hne hmm
  · rcases gas1 with _ | g
    · rw [loginLoop_one]
      exact loginIter_precond u p uL pL retries l0 rs false _ hu hp hne hmm
    · rw [loginLoop_succ2]
      exact loginIter_precond u p uL pL retries l0 rs true _ hu hp hne hmm

/-- C1 (amended): with username and password candidate lists of different
lengths, login never writes a password candidate to the device, and when
the first prompt the device shows is a password cue (no username cue), the
`ConnectionError` is raised before any data at all is sent.  (A username
candidate sent in reply to an earlier username cue may however precede the
failure, as the counterexample shows.) -/
theorem claim1_amended (u p : List Char) (responses : List (List Char))
    (hmm : (splitOnComma u).length ≠ (splitOnComma p).length) :
    (∀ i c, Ev.pass i c ∉ (login u p responses).2) ∧
    (∀ r0 rest l0, responses = r0 :: rest →
      (splitlines r0).getLast? = some l0 →
      hasSub (ofS "User") l0 = false → hasSub (ofS "Pass") l0 = true →
      p ≠ [] → login u p responses = (.precondError, [])) := by
  constructor
  · exact (login_trace u p responses _ _ rfl).2.2.2 hmm
  · intro r0 rest l0 hrs hl hu hp hne
    subst hrs
    rw [login.eq_def]
    dsimp only
    rw [hl]
    dsimp only
    exact loginLoop_precond u p (splitOnComma u) (splitOnComma p) _ 0 l0
      rest hu hp hne hmm

/-- C1 counterexample: with a 1-entry username list and a 2-entry password
list, a device that prompts for the username first receives the username
candidate over the connection before the precondition failure is raised —
data is sent before the `ConnectionError`, refuting "no username or
password byte is written". -/
theorem claim1_counterexample :
    login (ofS "u") (ofS "p1,p2") [ofS "Username:", ofS "Password:"] =
      (.precondError, [.user 0 (ofS "u")]) ∧
    ([Ev.user 0 (ofS "u")] : List Ev) ≠ [] := by
  refine ⟨by decide, by decide⟩

theorem claim1_amended_witness :
    (splitOnComma (ofS "u")).length ≠ (splitOnComma (ofS "p1,p2")).length ∧
    login (ofS "u") (ofS "p1,p2") [ofS "Password:"] =
      (.precondError, []) :=
  ⟨by decide,
   (claim1_amended (ofS "u") (ofS "p1,p2") [ofS "Password:"] (by decide)).2
     (ofS "Password:") [] (ofS "Password:") rfl (by decide) (by decide)
     (by decide) (by decide)⟩

/-- C4 counterexample: a response that ends with the prompt character `>`
but still contains a credential cue does not terminate login.  Here the
answer to the index-0 username submission is `"Password:>"` — it ends with
`>`, yet login sends the index-0 password and later the index-1 username
before succeeding, refuting "stops at the first index whose submission is
answered by a response ending in `>` or `#`". -/
theorem claim4_counterexample :
    login (ofS "u1,u2") (ofS "p1,p2")
      [ofS "Username:", ofS "Password:>", ofS "Username:", ofS "x>"] =
      (.success false (ofS "x"),
       [.user 0 (ofS "u1"), .pass 0 (ofS "p1"), .user 1 (ofS "u2")]) ∧
    endsWithChar '>' (ofS "Password:>") = true := by
  refine ⟨by decide, by decide⟩

/-- C4 (amended): for equal-length lists, the submissions are pairwise by
shared index in order — every sent username is `usernames[i]` and every
sent password is `passwords[i]` for the current index, consecutive sends
keep the index or advance it by one starting at 0 — and login stops at the
first index whose submission is answered by a response that ends in `>` or
`#` and contains no further credential cue (a cue-free prompt response
terminates the loop at once with no further sends). -/
theorem claim4_amended (u p : List Char) (rs : List (List Char))
    (_hlen : (splitOnComma u).length = (splitOnComma p).length) :
    goodLoginTrace (splitOnComma u) (splitOnComma p) (login u p rs).2 ∧
    (∀ gas retries r rs2,
      (endsWithChar '>' r = true ∨ endsWithChar '#' r = true) →
      hasSub (ofS "User") r = false → hasSub (ofS "Pass") r = false →
      ∃ b hn,
        loginLoop u p (splitOnComma u) (splitOnComma p) gas retries r rs2 =
          (.success b hn, [])) := by
  constructor
  · obtain ⟨p1, p2, p3, _⟩ := login_trace u p rs _ _ rfl
    exact ⟨p1, p2, p3⟩
  · intro gas retries r rs2 hend hu hp
    exact loginLoop_clean_prompt u p _ _ gas retries r rs2 hend hu hp

theorem claim4_amended_witness :
    (splitOnComma (ofS "u1,u2")).length =
      (splitOnComma (ofS "p1,p2")).length ∧
    goodLoginTrace (splitOnComma (ofS "u1,u2")) (splitOnComma (ofS "p1,p2"))
      (login (ofS "u1,u2") (ofS "p1,p2")
        [ofS "Username:", ofS "Password:", ofS "sw1>"]).2 ∧
    (∃ b hn, loginLoop (ofS "u1,u2") (ofS "p1,p2")
      (splitOnComma (ofS "u1,u2")) (splitOnComma (ofS "p1,p2")) 2 0
      (ofS "sw1>") [] = (.success b hn, [])) :=
  ⟨by decide,
   (claim4_amended (ofS "u1,u2") (ofS "p1,p2")
     [ofS "Username:", ofS "Password:", ofS "sw1>"] (by decide)).1,
   (claim4_amended (ofS "u1,u2") (ofS "p1,p2")
     [ofS "Username:", ofS "Password:", ofS "sw1>"] (by decide)).2 2 0
     (ofS "sw1>") [] (Or.inl (by decide)) (by decide) (by decide)⟩

/-- C5: with 2-entry username and password lists, a device whose first
prompt is a password cue and which answers both password submissions with
a renewed password cue (and no command prompt) receives exactly the two
password candidates, in order, and login then raises the
`ConnectionError` of an exhausted credential list. -/
theorem claim5_exhaust (u p a b c d : List Char)
    (hu : splitOnComma u = [a, b]) (hp : splitOnComma p = [c, d])
    (hpne : p ≠ [])
    (r0 l0 r1 r2 : List Char) (rest : List (List Char))
    (h0 : (splitlines r0).getLast? = some l0)
    (h0p : hasSub (ofS "Pass") l0 = true)
    (h0u : hasSub (ofS "User") l0 = false)
    (h1p : hasSub (ofS "Pass") r1 = true)
    (h1u : hasSub (ofS "User") r1 = false)
    (h1g : endsWithChar '>' r1 = false) (h1h : endsWithChar '#' r1 = false)
    (h2g : endsWithChar '>' r2 = false) (h2h : endsWithChar '#' r2 = false) :
    login u p (r0 :: r1 :: r2 :: rest) =
      (.authError, [.pass 0 c, .pass 1 d]) := by
  have hpe : p.isEmpty = false := by
    cases p with
    | nil => exact absurd rfl hpne
    | cons x xs => rfl
  have step2 : loginIter u p [a, b] [c, d] 1 r1 (r2 :: rest) false
      (fun _ _ => (.authError, [])) = (.authError, [.pass 1 d]) := by
    rw [loginIter]
    have hu1 : loginUserPhase u [a, b] 1 r1 (r2 :: rest) =
        .inr ([], r1, r2 :: rest) := by
      unfold loginUserPhase
      rw [h1u]
      simp
    have hp1 : loginPassPhase p [a, b] [c, d] 1 r1 (r2 :: rest) =
        .inr ([.pass 1 d], r2, rest) := by
      unfold loginPassPhase
      rw [h1p, hpe]
      simp
    rw [hu1]
    dsimp only
    rw [hp1]
    dsimp only
    rw [h2g, h2h]
    simp
  have step1 : loginLoop u p [a, b] [c, d] 2 0 l0 (r1 :: r2 :: rest) =
      (.authError, [.pass 0 c, .pass 1 d]) := by
    rw [show (2 : Nat) = 0 + 2 from rfl, loginLoop_succ2, loginIter]
    have hu0 : loginUserPhase u [a, b] 0 l0 (r1 :: r2 :: rest) =
        .inr ([], l0, r1 :: r2 :: rest) := by
      unfold loginUserPhase
      rw [h0u]
      simp
    have hp0 : loginPassPhase p [a, b] [c, d] 0 l0 (r1 :: r2 :: rest) =
        .inr ([.pass 0 c], r1, r2 :: rest) := by
      unfold loginPassPhase
      rw [h0p, hpe]
      simp
    rw [hu0]
    dsimp only
    rw [hp0]
    dsimp only
    rw [h1g, h1h]
    simp only [Bool.false_eq_true, if_false]
    rw [if_pos True.intro]
    rw [show (0 + 1 : Nat) = 1 from rfl, loginLoop_one, step2]
    rfl
  rw [login.eq_def]
  dsimp only
  rw [h0]
  dsimp only
  rw [hu, hp]
  have hlen2 : ([a, b] : List (List Char)).length = 2 := rfl
  rw [hlen2]
  exact step1

theorem claim5_exhaust_witness :
    splitOnComma (ofS "u1,u2") = [ofS "u1", ofS "u2"] ∧
    login (ofS "u1,u2") (ofS "p1,p2")
      [ofS "Password:", ofS "Password:", ofS "Password:"] =
      (.authError, [.pass 0 (ofS "p1"), .pass 1 (ofS "p2")]) :=
  ⟨by decide,
   claim5_exhaust (ofS "u1,u2") (ofS "p1,p2") (ofS "u1") (ofS "u2")
     (ofS "p1") (ofS "p2") (by decide) (by decide) (by decide)
     (ofS "Password:") (ofS "Password:") (ofS "Password:") (ofS "Password:")
     [] (by decide) (by decide) (by decide) (by decide) (by decide)
     (by decide) (by decide) (by decide) (by decide)⟩

/-! ## Privilege-escalation lemmas and claim C3 -/

theorem enableLoop_nil (pw : Option (List Char)) (retries : Nat) :
    enableLoop pw retries [] = (.noData, []) := rfl

theorem enableLoop_cons (pw : Option (List Char)) (retries : Nat)
    (r : List Char) (rest : List (List Char)) :
    enableLoop pw retries (r :: rest) =
      (if hasSub (ofS "Password:") r then
        match pw with
        | none => (.interactive, [])
        | some p =>
          if p.isEmpty then (.interactive, [])
          else if retries < (splitOnComma p).length then
            let res := enableLoop (some p) (retries + 1) rest
            (res.1,
             .cred retries ((splitOnComma p).getD retries []) :: res.2)
          else
            let res := enableLoop none (retries + 1) rest
            (res.1, .empty :: res.2)
      else if hasSub (ofS "#") r then (.success, [])
      else
        match pw with
        | none => (.crash, [])
        | some p =>
          if retries < (splitOnComma p).length then
            let res := enableLoop (some p) retries rest
            (res.1, .enableCmd :: res.2)
          else (.gaveUp, [])) := rfl

theorem enableLoop_none_not_gaveUp (retries : Nat)
    (rs : List (List Char)) :
    (enableLoop none retries rs).1 ≠ .gaveUp := by
  cases rs with
  | nil => rw [enableLoop_nil]; intro h; cases h
  | cons r rest =>
    rw [enableLoop_cons]
    by_cases h1 : hasSub (ofS "Password:") r = true
    · rw [if_pos h1]; intro h; cases h
    · rw [if_neg h1]
      by_cases h2 : hasSub (ofS "#") r = true
      · rw [if_pos h2]; intro h; cases h
      · rw [if_neg h2]; intro h; cases h

theorem credsOf_cons_cred (i : Nat) (c : List Char) (evs : List EnEv) :
    credsOf (EnEv.cred i c :: evs) = (i, c) :: credsOf evs := rfl

theorem credsOf_cons_enable (evs : List EnEv) :
    credsOf (EnEv.enableCmd :: evs) = credsOf evs := rfl

theorem enableLoop_gaveUp (p : List Char) :
    ∀ (rs : List (List Char)) (retries : Nat) (out : EnOut)
      (evs : List EnEv),
      retries ≤ (splitOnComma p).length →
      enableLoop (some p) retries rs = (out, evs) →
      out = .gaveUp →
      credsOf evs =
        (List.range' retries ((splitOnComma p).length - retries)).map
          (fun i => (i, (splitOnComma p).getD i [])) ∧
      EnEv.empty ∉ evs := by
  intro rs
  induction rs with
  | nil =>
    intro retries out evs hle heq hout
    rw [enableLoop_nil] at heq
    cases heq
    cases hout
  | cons r rest ih =>
    intro retries out evs hle heq hout
    rw [enableLoop_cons] at heq
    by_cases h1 : hasSub (ofS "Password:") r = true
    · rw [if_pos h1] at heq
      dsimp only at heq
      by_cases hpe : p.isEmpty = true
      · rw [if_pos hpe] at heq
        cases heq
        cases hout
      · rw [if_neg hpe] at heq
        by_cases hlt : retries < (splitOnComma p).length
        · rw [if_pos hlt] at heq
          obtain ⟨out1, evs1, hres⟩ :
              ∃ o t, enableLoop (some p) (retries + 1) rest = (o, t) :=
            ⟨_, _, rfl⟩
          rw [hres] at heq
          dsimp only at heq
          cases heq
          obtain ⟨hc, hemp⟩ := ih (retries + 1) out evs1 hlt hres hout
          constructor
          · rw [credsOf_cons_cred, hc]
            have hn : (splitOnComma p).length - retries =
                ((splitOnComma p).length - (retries + 1)) + 1 := by omega
            rw [hn, List.range'_succ, List.map_cons]
          · intro hmem
            rcases List.mem_cons.mp hmem with hmem | hmem
            · cases hmem
            · exact hemp hmem
        · rw [if_neg hlt] at heq
          obtain ⟨out1, evs1, hres⟩ :
              ∃ o t, enableLoop none (retries + 1) rest = (o, t) :=
            ⟨_, _, rfl⟩
          rw [hres] at heq
          dsimp only at heq
          cases heq
          have := enableLoop_none_not_gaveUp (retries + 1) rest
          rw [hres] at this
          exact absurd hout this
    · rw [if_neg h1] at heq
      by_cases h2 : hasSub (ofS "#") r = true
      · rw [if_pos h2] at heq
        cases heq
        cases hout
      · rw [if_neg h2] at heq
        dsimp only at heq
        by_cases hlt : retries < (splitOnComma p).length
        · rw [if_pos hlt] at heq
          obtain ⟨out1, evs1, hres⟩ :
              ∃ o t, enableLoop (some p) retries rest = (o, t) :=
            ⟨_, _, rfl⟩
          rw [hres] at heq
          dsimp only at heq
          cases heq
          obtain ⟨hc, hemp⟩ := ih retries out evs1 hle hres hout
          constructor
          · rw [credsOf_cons_enable, hc]
          · intro hmem
            rcases List.mem_cons.mp hmem with hmem | hmem
            · cases hmem
            · exact hemp hmem
        · rw [if_neg hlt] at heq
          cases heq
          have hr : retries = (splitOnComma p).length := by omega
          subst hr
          constructor
          · rw [Nat.sub_self]
            rfl
          · intro hmem
            cases hmem

/-- C3 counterexample: with a 1-entry enable-password list, a device that
re-issues the `Password:` cue after the list is exhausted receives an
empty line (`self.enable_password` is then set to `None`), and the next
response without a cue or `#` makes `enable` evaluate
`None.split(",")` — an `AttributeError` (modelled `.crash`), so a failed
escalation can raise instead of returning. -/
theorem claim3_counterexample :
    enable false (some (ofS "a"))
      [ofS "Password:", ofS "Password:", ofS ">"] =
      (.crash, [.enableCmd, .cred 0 (ofS "a"), .empty]) ∧
    (.crash : EnOut) ≠ .gaveUp := by
  refine ⟨by decide, by decide⟩

/-- C3 (amended): on every run in which the escalation actually gives up
(the exhausted warning-and-`break` branch), exactly the
`len(enable_password.split(","))` candidate passwords were submitted —
indices 0 .. N-1 in order, each with the list's entry — no empty line was
sent, no error is raised on that path, and the session stays unprivileged
(`.gaveUp` is a normal return with `enable_mode` still false).  Runs in
which the device re-prompts after exhaustion can instead end in `.crash`,
as the counterexample shows. -/
theorem claim3_amended (p : List Char) (rs : List (List Char))
    (out : EnOut) (evs : List EnEv)
    (heq : enable false (some p) rs = (out, evs))
    (hout : out = .gaveUp) :
    credsOf evs =
      (List.range' 0 (splitOnComma p).length).map
        (fun i => (i, (splitOnComma p).getD i [])) ∧
    EnEv.empty ∉ evs ∧ out ≠ .crash ∧ out ≠ .success := by
  rw [enable] at heq
  rw [if_neg (by simp)] at heq
  obtain ⟨out1, evs1, hres⟩ : ∃ o t, enableLoop (some p) 0 rs = (o, t) :=
    ⟨_, _, rfl⟩
  rw [hres] at heq
  dsimp only at heq
  cases heq
  obtain ⟨hc, hemp⟩ := enableLoop_gaveUp p rs 0 out evs1
    (Nat.zero_le _) hres hout
  refine ⟨?_, ?_, ?_, ?_⟩
  · rw [credsOf_cons_enable, hc, Nat.sub_zero]
  · intro hmem
    rcases List.mem_cons.mp hmem with hmem | hmem
    · cases hmem
    · exact hemp hmem
  · rw [hout]; intro h; cases h
  · rw [hout]; intro h; cases h

theorem claim3_amended_witness :
    credsOf (enable false (some (ofS "a,b"))
      [ofS "Password:", ofS "Password:", ofS "bad>"]).2 =
      (List.range' 0 (splitOnComma (ofS "a,b")).length).map
        (fun i => (i, (splitOnComma (ofS "a,b")).getD i [])) ∧
    EnEv.empty ∉ (enable false (some (ofS "a,b"))
      [ofS "Password:", ofS "Password:", ofS "bad>"]).2 ∧
    (enable false (some (ofS "a,b"))
      [ofS "Password:", ofS "Password:", ofS "bad>"]).1 ≠ .crash ∧
    (enable false (some (ofS "a,b"))
      [ofS "Password:", ofS "Password:", ofS "bad>"]).1 ≠ .success :=
  claim3_amended (ofS "a,b")
    [ofS "Password:", ofS "Password:", ofS "bad>"] _ _ rfl (by decide)
